import Mathlib

/-!
# Mining client: search engine (`Miner`) and controller (`MinerManager`)

A shallow embedding of `src/miner/Miner.cpp` and `src/miner/MinerManager.cpp`.

* Machine integers are natural numbers with explicit reduction modulo `2^32`
  (nonce) or `2^64` (timestamps).
* Functions that live outside the two files (hashing, difficulty check, merkle
  root, merge-mining tag serialisation) are fields of `Collaborators`.
* A C++ exception is an `Except` error or an explicit outcome constructor.
-/

namespace CryptoNote

/-- Digest of a block (`Crypto::Hash`), kept opaque. -/
abbrev Hash := Nat

/-- The enum `MiningState` held in the atomic `Miner::m_state`. -/
inductive MiningState where
  | MINING_STOPPED
  | MINING_IN_PROGRESS
  | BLOCK_FOUND
  deriving DecidableEq, Repr

/-- The part of `CryptoNote::BlockTemplate` that the miner reads or writes.
`parentExtra` is `parentBlock.baseTransaction.extra`; `content` stands for all
remaining fields, which neither file touches. -/
structure BlockTemplate where
  majorVersion : Nat
  timestamp : Nat
  nonce : Nat
  parentExtra : List Nat
  content : List Nat
  deriving DecidableEq, Repr

/-- The record `TransactionExtraMergeMiningTag`. -/
structure TransactionExtraMergeMiningTag where
  depth : Nat
  merkleRoot : Hash
  deriving DecidableEq, Repr

/-- The record `BlockMiningParameters`. -/
structure BlockMiningParameters where
  blockTemplate : BlockTemplate
  difficulty : Nat
  deriving DecidableEq, Repr

/-- The fields of `MiningConfig` read by the two files. -/
structure MiningConfig where
  threadCount : Nat
  blocksLimit : Nat
  firstBlockTimestamp : Nat
  blockTimestampInterval : Nat
  deriving DecidableEq, Repr

/-- Functions called by the miner whose bodies are outside the two files.
`getBlockLongHash` answers `none` when the call raises a `std::exception`;
`appendMergeMiningTagToExtra` answers its boolean result together with the
contents of the vector it was given by reference. -/
structure Collaborators where
  getMerkleRoot : BlockTemplate → Hash
  appendMergeMiningTagToExtra : List Nat → TransactionExtraMergeMiningTag → Bool × List Nat
  getBlockLongHash : BlockTemplate → Option Hash
  check_hash : Hash → Nat → Bool

/-- Modelled from the spec: the constant `BLOCK_MAJOR_VERSION_2` of
`CryptoNoteConfig.h`, which the spec gives as `major_version ≥ 2`. -/
def BLOCK_MAJOR_VERSION_2 : Nat := 2

/-- Wrapping 64-bit unsigned addition. -/
def add64 (a b : Nat) : Nat := (a + b) % 2 ^ 64

/-- Wrapping 32-bit unsigned addition. -/
def add32 (a b : Nat) : Nat := (a + b) % 2 ^ 32

end CryptoNote

namespace Miner

open CryptoNote

/-- The template handed to each worker by the spawning loop of
`Miner::runWorkers` (Miner.cpp 78-91): worker `0` receives the seeded template
and `blockTemplate.nonce++` runs after every spawn. -/
def spawnTemplates (blockTemplate : BlockTemplate) : Nat → List BlockTemplate
  | 0 => []
  | n + 1 => blockTemplate ::
      spawnTemplates { blockTemplate with nonce := add32 blockTemplate.nonce 1 } n

/-- The argument `static_cast<uint32_t>(threadCount)` bound to `nonceStep`. -/
def nonceStepOf (threadCount : Nat) : Nat := threadCount % 2 ^ 32

/-- The statement `block.nonce += nonceStep` of `Miner::workerFunc` (line 129). -/
def advanceNonce (block : BlockTemplate) (nonceStep : Nat) : BlockTemplate :=
  { block with nonce := add32 block.nonce nonceStep }

/-- Nonce that the spawning loop gives to worker `i`, starting from `seed`. -/
def startNonce (seed : Nat) : Nat → Nat
  | 0 => seed
  | i + 1 => add32 (startNonce seed i) 1

/-- Nonce a worker holds after `k` failed hashes, from `start` with step `step`. -/
def workerNonce (start step : Nat) : Nat → Nat
  | 0 => start
  | k + 1 => add32 (workerNonce start step k) step

/-- Nonce examined by worker `i` of `threadCount` in its iteration `k`. -/
def examinedNonce (seed threadCount i k : Nat) : Nat :=
  workerNonce (startNonce seed i) (nonceStepOf threadCount) k

/-- The three ways `Miner::mine` ends by throwing: the two
`std::runtime_error`s of lines 31 and 36 and `System::InterruptedException`. -/
inductive MineFailure where
  | threadCountZero
  | alreadyInProgress
  | interrupted
  deriving DecidableEq, Repr

/-- Program points of one worker thread running `Miner::workerFunc`.
`sbfLoad` and `sbfSwitch state` are inside `Miner::setStateBlockFound`
(line 142, and the `switch` of line 146 with its local `state`). -/
inductive WorkerPc where
  | loopTest
  | hashing
  | sbfLoad
  | sbfSwitch (state : MiningState)
  | storeBlock
  | finished
  deriving DecidableEq, Repr

/-- A worker thread: its program point and the arguments bound at spawn time. -/
structure Worker where
  pc : WorkerPc
  block : BlockTemplate
  difficulty : Nat
  nonceStep : Nat
  deriving DecidableEq, Repr

/-- Result of `Miner::mine`: the returned block or the exception thrown. -/
inductive MineResult where
  | found (block : BlockTemplate)
  | failed (e : MineFailure)
  deriving DecidableEq, Repr

/-- Program points of the context that runs `Miner::mine`. `spawning i t` is
the head of the `for` loop of `runWorkers` with `i` workers spawned and `t` the
current `blockMiningParameters.blockTemplate`; `joining` is `m_workers.clear()`;
`afterRun` is line 45. -/
inductive MinePc where
  | entry
  | spawning (i : Nat) (blockTemplate : BlockTemplate)
  | joining
  | afterRun
  | returned (r : MineResult)
  deriving DecidableEq, Repr

/-- Observable events of one attempt, recorded in order. The record is only
ever appended to; no step reads it. -/
inductive Event where
  | casFound (worker : Nat)
  | stored (worker : Nat) (block : BlockTemplate)
  | stopCas
  | workerCatch (worker : Nat)
  | runWorkersCatch
  deriving DecidableEq, Repr

/-- The members of `Miner` together with the `mine` call being executed:
its arguments, the value drawn by `Random::randomValue<uint32_t>()`, the
program point of the calling context and the worker threads. -/
structure System where
  m_state : MiningState
  m_block : BlockTemplate
  m_hash_count : Nat
  m_miningStopped : Bool
  params : BlockMiningParameters
  threadCount : Nat
  seed : Nat
  minePc : MinePc
  workers : List Worker
  log : List Event
  deriving DecidableEq, Repr

/-- One step of the context running `Miner::mine` and, inside it,
`Miner::runWorkers` (Miner.cpp 27-51 and 64-103). `spawnFails` says whether
creating the next `RemoteContext` throws, which the `catch` of line 95 handles.
The entry step runs lines 29-40 and the seeding of line 76 at once: `mine` is
called from the dispatcher thread, one call at a time. Waiting in
`m_workers.clear()` is a step that does nothing until every worker has
returned. -/
def mine (s : System) (spawnFails : Bool) : System :=
  match s.minePc with
  | .entry =>
    if s.threadCount = 0 then
      { s with minePc := .returned (.failed .threadCountZero) }
    else if s.m_state = .MINING_IN_PROGRESS then
      { s with minePc := .returned (.failed .alreadyInProgress) }
    else
      { s with
        m_state := .MINING_IN_PROGRESS
        m_miningStopped := false
        minePc := .spawning 0 { s.params.blockTemplate with nonce := s.seed } }
  | .spawning i t =>
    if i < s.threadCount then
      if spawnFails then
        { s with
          m_state := .MINING_STOPPED
          m_miningStopped := true
          minePc := .afterRun
          log := s.log ++ [Event.runWorkersCatch] }
      else
        { s with
          workers := s.workers ++
            [{ pc := .loopTest, block := t, difficulty := s.params.difficulty,
               nonceStep := nonceStepOf s.threadCount }]
          minePc := .spawning (i + 1) { t with nonce := add32 t.nonce 1 } }
    else { s with minePc := .joining }
  | .joining =>
    if s.workers.all (fun w => decide (w.pc = .finished)) then
      { s with workers := [], m_miningStopped := true, minePc := .afterRun }
    else s
  | .afterRun =>
    if s.m_state = .MINING_STOPPED then
      { s with minePc := .returned (.failed .interrupted) }
    else { s with minePc := .returned (.found s.m_block) }
  | .returned _ => s

/-- The compare-and-swap of `Miner::stop` (Miner.cpp 53-62).
`compare_exchange_weak` may fail although the state is `MINING_IN_PROGRESS`
(`spurious`). The wait on `m_miningStopped` that follows a successful swap only
delays the caller and changes no member read by `mine` or by the workers. -/
def stop (s : System) (spurious : Bool) : System :=
  if s.m_state = .MINING_IN_PROGRESS ∧ spurious = false then
    { s with m_state := .MINING_STOPPED, log := s.log ++ [Event.stopCas] }
  else s

/-- One atomic step of worker `i` in `Miner::workerFunc` (Miner.cpp 105-138)
and, from `sbfLoad` on, in `Miner::setStateBlockFound` (Miner.cpp 140-171).
`spurious` is a spurious failure of `compare_exchange_weak`. -/
def workerFunc (ext : Collaborators) (s : System) (i : Nat) (spurious : Bool) : System :=
  match s.workers[i]? with
  | none => s
  | some w =>
    match w.pc with
    | .loopTest =>
      if s.m_state = .MINING_IN_PROGRESS then
        { s with workers := s.workers.set i { w with pc := .hashing } }
      else { s with workers := s.workers.set i { w with pc := .finished } }
    | .hashing =>
      match ext.getBlockLongHash w.block with
      | none =>
        { s with
          m_state := .MINING_STOPPED
          workers := s.workers.set i { w with pc := .finished }
          log := s.log ++ [Event.workerCatch i] }
      | some hash =>
        if ext.check_hash hash w.difficulty then
          { s with workers := s.workers.set i { w with pc := .sbfLoad } }
        else
          { s with
            m_hash_count := add64 s.m_hash_count 1
            workers := s.workers.set i
              { w with pc := .loopTest, block := advanceNonce w.block w.nonceStep } }
    | .sbfLoad =>
      { s with workers := s.workers.set i { w with pc := .sbfSwitch s.m_state } }
    | .sbfSwitch .BLOCK_FOUND =>
      { s with workers := s.workers.set i { w with pc := .finished } }
    | .sbfSwitch .MINING_STOPPED =>
      { s with workers := s.workers.set i { w with pc := .finished } }
    | .sbfSwitch .MINING_IN_PROGRESS =>
      if s.m_state = .MINING_IN_PROGRESS ∧ spurious = false then
        { s with
          m_state := .BLOCK_FOUND
          workers := s.workers.set i { w with pc := .storeBlock }
          log := s.log ++ [Event.casFound i] }
      else { s with workers := s.workers.set i { w with pc := .sbfSwitch s.m_state } }
    | .storeBlock =>
      { s with
        m_block := w.block
        workers := s.workers.set i { w with pc := .finished }
        log := s.log ++ [Event.stored i w.block] }
    | .finished => s

/-- One scheduling decision: which thread moves next, with the outcome the
environment picks for it. -/
inductive Action where
  | mine (spawnFails : Bool)
  | worker (i : Nat) (spurious : Bool)
  | stop (spurious : Bool)
  deriving DecidableEq, Repr

/-- The interleaving step. -/
def step (ext : Collaborators) (s : System) : Action → System
  | .mine spawnFails => mine s spawnFails
  | .worker i spurious => workerFunc ext s i spurious
  | .stop spurious => stop s spurious

/-- A run under a schedule. -/
def run (ext : Collaborators) (s : System) (schedule : List Action) : System :=
  schedule.foldl (step ext) s

/-- The system at the moment `mine(params, threadCount)` is called on a miner
whose members hold the given values. `m_workers` are the worker threads still
on record from an earlier call: `m_workers.clear()` (line 93) is inside the
`try` of `runWorkers`, so a call that left through the `catch` of line 95
leaves its workers there, possibly still running. -/
def call (m_state : MiningState) (m_block : BlockTemplate) (m_hash_count : Nat)
    (m_workers : List Worker) (params : BlockMiningParameters) (threadCount seed : Nat) :
    System :=
  { m_state := m_state, m_block := m_block, m_hash_count := m_hash_count,
    m_miningStopped := false, params := params, threadCount := threadCount, seed := seed,
    minePc := .entry, workers := m_workers, log := [] }

/-- The next call of `mine` on the same miner: every member, `m_workers`
included, is as the earlier call left it. -/
def nextCall (s : System) (params : BlockMiningParameters) (threadCount seed : Nat) :
    System :=
  call s.m_state s.m_block s.m_hash_count s.workers params threadCount seed

/-- Workers whose successful compare-and-swap to `BLOCK_FOUND` is on record. -/
def winners : List Event → List Nat
  | [] => []
  | Event.casFound i :: es => i :: winners es
  | _ :: es => winners es

/-- Whether an event is the run of a `catch` handler. -/
def Event.isCatch : Event → Bool
  | .workerCatch _ => true
  | .runWorkersCatch => true
  | _ => false

/-- The block passes the difficulty check: `check_hash(getBlockLongHash(b), d)`. -/
def qualifies (ext : Collaborators) (b : BlockTemplate) (difficulty : Nat) : Bool :=
  match ext.getBlockLongHash b with
  | none => false
  | some hash => ext.check_hash hash difficulty

/-- State predicate kept by every step of a call made with `threadCount = 0`. -/
@[reducible] def ZeroCall (blk : BlockTemplate) (hc : Nat) (s : System) : Prop :=
  s.threadCount = 0 ∧ s.workers = [] ∧ s.m_block = blk ∧ s.m_hash_count = hc ∧
    (s.minePc = .entry ∨ s.minePc = .returned (.failed .threadCountZero)) ∧
    ∀ e ∈ s.log, e = Event.stopCas

/-- Collaborators whose long hash raises on nonce `11` and is `0` elsewhere. -/
def flakyCollaborators : Collaborators where
  getMerkleRoot := fun t => t.content.sum
  appendMergeMiningTagToExtra := fun extra tag => (true, extra ++ [3, tag.depth, tag.merkleRoot])
  getBlockLongHash := fun t => if t.nonce = 11 then none else some 0
  check_hash := fun h d => decide (h * d < 2 ^ 256)

/-- A template used to evaluate the model. -/
def sampleBlock : BlockTemplate :=
  { majorVersion := 2, timestamp := 1000, nonce := 0, parentExtra := [], content := [1, 2] }

/-- The call `mine((sampleBlock, 1), 2)` with seed `10` on a stopped miner with
no worker left from an earlier call. -/
def sampleCall : System :=
  call .MINING_STOPPED sampleBlock 0 [] { blockTemplate := sampleBlock, difficulty := 1 } 2 10

/-- Schedule: both workers are spawned, worker 1 starts hashing, then worker 0
hashes, wins the compare-and-swap and stores its block. -/
def foundSchedule : List Action :=
  [.mine false, .mine false, .mine false, .worker 1 false,
   .worker 0 false, .worker 0 false, .worker 0 false, .worker 0 false, .worker 0 false]

/-- The block equals the template in every field except possibly the nonce. -/
def sameButNonce (b t : BlockTemplate) : Prop :=
  b = { t with nonce := b.nonce }

/-- Program points reached only after the worker's current block passed
`check_hash`. -/
def WorkerPc.pastHash : WorkerPc → Bool
  | .sbfLoad => true
  | .sbfSwitch _ => true
  | .storeBlock => true
  | _ => false

/-- Some `catch` handler has run. -/
def hasCatch (log : List Event) : Prop :=
  ∃ e ∈ log, e.isCatch = true

/-- What holds of worker `j` in a state with the given `m_state` and record. -/
structure WorkerInv (ext : Collaborators) (params : BlockMiningParameters)
    (st : MiningState) (log : List Event) (j : Nat) (w : Worker) : Prop where
  difficulty : w.difficulty = params.difficulty
  block : sameButNonce w.block params.blockTemplate
  qual : w.pc.pastHash = true → qualifies ext w.block w.difficulty = true
  store : w.pc = .storeBlock → winners log = [j]
  observed : ∀ x, w.pc = .sbfSwitch x → x ≠ .MINING_IN_PROGRESS →
    st ≠ .MINING_IN_PROGRESS
  fin : w.pc = .finished → st ≠ .MINING_IN_PROGRESS

/-- How `m_state` relates to the record once `mine` has passed its entry. -/
structure StateLog (st : MiningState) (log : List Event) : Prop where
  inProgress : st = .MINING_IN_PROGRESS →
    winners log = [] ∧ Event.stopCas ∉ log ∧ ¬ hasCatch log
  found : st = .BLOCK_FOUND →
    (∃ i, winners log = [i]) ∧ Event.stopCas ∉ log ∧ ¬ hasCatch log
  stopped : st = .MINING_STOPPED →
    (Event.stopCas ∈ log ∨ hasCatch log) ∧ (winners log).length ≤ 1 ∧
      (Event.stopCas ∈ log → winners log = [])

/-- Every worker on record has returned. -/
def allFinished (workers : List Worker) : Prop :=
  ∀ (j : Nat) (w : Worker), workers[j]? = some w → w.pc = .finished

/-- What holds at each program point of the context running `mine`. -/
structure PcInv (s : System) : Prop where
  entry : s.minePc = .entry →
    s.m_state ≠ .MINING_IN_PROGRESS ∧ s.workers = [] ∧ s.log = []
  spawning : ∀ i t, s.minePc = .spawning i t →
    sameButNonce t s.params.blockTemplate ∧ s.workers.length = i
  joining : s.minePc = .joining → s.workers ≠ []
  afterRun : s.minePc = .afterRun →
    s.m_state ≠ .MINING_IN_PROGRESS ∧ (allFinished s.workers ∨ hasCatch s.log)
  found : ∀ b, s.minePc = .returned (.found b) →
    s.m_state = .BLOCK_FOUND ∧ s.m_block = b ∧ allFinished s.workers
  failed : ∀ e, s.minePc = .returned (.failed e) →
    e = .interrupted ∧ s.m_state = .MINING_STOPPED

/-- The invariant of one attempt made with `threadCount ≥ 1` on a miner that
was not mining. -/
structure Inv (ext : Collaborators) (s : System) : Prop where
  threads : 1 ≤ s.threadCount
  workers : ∀ (j : Nat) (w : Worker), s.workers[j]? = some w →
    WorkerInv ext s.params s.m_state s.log j w
  stateLog : s.minePc ≠ .entry → StateLog s.m_state s.log
  winner : ∀ (i : Nat), winners s.log = [i] →
    (∃ w : Worker, s.workers[i]? = some w ∧ w.pc = .storeBlock) ∨
    (∃ b, Event.stored i b ∈ s.log ∧ s.m_block = b ∧
      qualifies ext b s.params.difficulty = true ∧ sameButNonce b s.params.blockTemplate)
  pc : PcInv s

/-- Schedule without any `stop()`: both workers are spawned, the hash of
worker 1 raises, worker 0 sees the stopped state, and `mine` joins and ends. -/
def catchSchedule : List Action :=
  [.mine false, .mine false, .mine false, .worker 1 false, .worker 1 false,
   .worker 0 false, .mine false, .mine false, .mine false]

/-- Schedule in which worker 0 finds and stores a block, worker 1 then sees
`BLOCK_FOUND` and returns, and `mine` joins and returns the block. -/
def winSchedule : List Action :=
  [.mine false, .mine false, .mine false,
   .worker 0 false, .worker 0 false, .worker 0 false, .worker 0 false, .worker 0 false,
   .worker 1 false, .mine false, .mine false, .mine false]

/-- Schedule of a first call `sampleCall`: worker 0 is spawned and starts
hashing, creating worker 1 throws, the `catch` of `runWorkers` stores
`MINING_STOPPED` without `m_workers.clear()`, and `mine` ends at line 47. -/
def leakSchedule : List Action :=
  [.mine false, .mine false, .worker 0 false, .mine true, .mine false]

/-- Parameters of a second call: another template, difficulty `1024`. -/
def secondParams : BlockMiningParameters :=
  { blockTemplate :=
      { majorVersion := 1, timestamp := 2000, nonce := 0, parentExtra := [], content := [3] },
    difficulty := 1024 }

/-- Schedule of the second call: `mine` sets `MINING_IN_PROGRESS`; the worker
left by the first call completes its hash, makes the compare-and-swap and
stores its block; the new worker is spawned, sees `BLOCK_FOUND` and returns;
`mine` joins and returns `m_block`. -/
def staleWinSchedule : List Action :=
  [.mine false, .worker 0 false, .worker 0 false, .worker 0 false, .worker 0 false,
   .mine false, .mine false, .worker 1 false, .mine false, .mine false]

/-- Steps a worker still needs to return once `m_state` has left
`MINING_IN_PROGRESS` for good. -/
def WorkerPc.stepsLeft : WorkerPc → Nat
  | .finished => 0
  | .loopTest => 1
  | .storeBlock => 1
  | .sbfSwitch .MINING_IN_PROGRESS => 2
  | .sbfSwitch _ => 1
  | .sbfLoad => 2
  | .hashing => 3

/-- Steps the context running `mine` still needs before it has ended, not
counting the steps of its workers. -/
def callStepsLeft (s : System) : Nat :=
  match s.minePc with
  | .entry => 0
  | .spawning i _ => 2 * (s.threadCount - i) + 3
  | .joining => 2
  | .afterRun => 1
  | .returned _ => 0

/-- Bound on the number of steps before a stopped attempt has ended. -/
def stepsLeft (s : System) : Nat :=
  callStepsLeft s + (s.workers.map (fun w => w.pc.stepsLeft)).sum

/-- A stopped attempt: `mine` is past its entry and has not ended otherwise
than with `InterruptedException`. -/
def Stopped (s : System) : Prop :=
  s.m_state = .MINING_STOPPED ∧ s.minePc ≠ .entry ∧
    ∀ r, s.minePc = .returned r → r = .failed .interrupted

end Miner

namespace MinerManager

open CryptoNote

/-- Errors raised as `std::runtime_error` by the manager's helpers. -/
inductive ManagerError where
  | couldntAppendMergeMiningTag
  deriving DecidableEq, Repr

/-- The free function `adjustMergeMiningTag` (MinerManager.cpp 41-57). -/
def adjustMergeMiningTag (ext : Collaborators) (blockTemplate : BlockTemplate) :
    Except ManagerError BlockTemplate :=
  if blockTemplate.majorVersion ≥ BLOCK_MAJOR_VERSION_2 then
    let mmTag : TransactionExtraMergeMiningTag :=
      { depth := 0, merkleRoot := ext.getMerkleRoot blockTemplate }
    let r := ext.appendMergeMiningTagToExtra [] mmTag
    if r.1 then .ok { blockTemplate with parentExtra := r.2 }
    else .error ManagerError.couldntAppendMergeMiningTag
  else .ok blockTemplate

/-- The timestamp part of `MinerManager::adjustBlockTemplate`
(MinerManager.cpp 336-349), run after the merge-mining tag was written. -/
def adjustTimestamp (cfg : MiningConfig) (m_lastBlockTimestamp : Nat)
    (blockTemplate : BlockTemplate) : BlockTemplate :=
  if cfg.firstBlockTimestamp = 0 then blockTemplate
  else if m_lastBlockTimestamp = 0 then
    { blockTemplate with timestamp := cfg.firstBlockTimestamp }
  else if m_lastBlockTimestamp ≠ 0 ∧ cfg.blockTimestampInterval ≠ 0 then
    { blockTemplate with timestamp := add64 m_lastBlockTimestamp cfg.blockTimestampInterval }
  else blockTemplate

/-- The method `MinerManager::adjustBlockTemplate` (MinerManager.cpp 332-350). -/
def adjustBlockTemplate (ext : Collaborators) (cfg : MiningConfig)
    (m_lastBlockTimestamp : Nat) (blockTemplate : BlockTemplate) :
    Except ManagerError BlockTemplate :=
  match adjustMergeMiningTag ext blockTemplate with
  | .error e => .error e
  | .ok t => .ok (adjustTimestamp cfg m_lastBlockTimestamp t)

/-- A concrete set of collaborators used to evaluate the definitions: the
merkle root is taken over `content`, the tag is serialised as three bytes, the
long hash is the nonce and the difficulty check is `hash * difficulty < 2^256`. -/
def sampleCollaborators : Collaborators where
  getMerkleRoot := fun t => t.content.sum
  appendMergeMiningTagToExtra := fun extra tag => (true, extra ++ [3, tag.depth, tag.merkleRoot])
  getBlockLongHash := fun t => some (t.nonce * 2 ^ 250)
  check_hash := fun h d => decide (h * d < 2 ^ 256)

/-- A version-2 template used to evaluate the definitions. -/
def sampleTemplate : BlockTemplate :=
  { majorVersion := 2, timestamp := 1000, nonce := 0, parentExtra := [9, 9], content := [1, 2] }

/-- The enum `MinerEventType`. -/
inductive MinerEventType where
  | BLOCK_MINED
  | BLOCKCHAIN_UPDATED
  deriving DecidableEq, Repr

/-- What the daemon answered to `POST /block/template`: the HTTP status and
the mining parameters decoded from the body, `none` when the body is not valid
JSON or its blob does not deserialise (lines 299 and 320). -/
structure TemplateResponse where
  status : Nat
  body : Option BlockMiningParameters
  deriving DecidableEq, Repr

/-- Calls the event loop makes on its collaborators, in program order. -/
inductive Call where
  | stopBlockchainMonitoring
  | stopMining
  | submitBlock (minedBlock : BlockTemplate) (accepted : Bool)
  | requestMiningParameters
  | startBlockchainMonitoring
  | startMining (params : BlockMiningParameters)
  deriving DecidableEq, Repr

/-- Where the context running `MinerManager::eventLoop` stands: still looping,
returned through line 138, left by the exception of `adjustBlockTemplate`, or
inside `requestMiningParameters` with a daemon that never answers usably. -/
inductive LoopStatus where
  | running
  | returned
  | threw (e : ManagerError)
  | retrying
  deriving DecidableEq, Repr

/-- The members of `MinerManager` used by the event loop, the local
`blocksMined`, the state of the owned miner and the record of calls made. -/
structure Manager where
  blocksMined : Nat
  m_lastBlockTimestamp : Nat
  m_minedBlock : BlockTemplate
  m_events : List MinerEventType
  minerState : MiningState
  status : LoopStatus
  calls : List Call
  deriving DecidableEq, Repr

/-- The result of `MinerManager::submitBlock` (MinerManager.cpp 230-253) given
the daemon's answer to `POST /block`: `none` is no response, `some status` an
HTTP status. -/
def submitBlock (res : Option Nat) : Bool :=
  match res with
  | some status => status == 202
  | none => false

/-- The method `MinerManager::requestMiningParameters` (MinerManager.cpp
255-330) run against the daemon's successive answers (`none`: no response). It
retries after every unusable answer; `none` is returned when the answers run
out, that is when the retry loop never ends. -/
def requestMiningParameters :
    List (Option TemplateResponse) → Option BlockMiningParameters
  | [] => none
  | none :: rest => requestMiningParameters rest
  | some r :: rest =>
    if r.status ≠ 201 then requestMiningParameters rest
    else
      match r.body with
      | none => requestMiningParameters rest
      | some params => some params

/-- The common tail of both event handlers (lines 142-146 and 154-157): request
parameters, adjust the template, start the monitor, start mining. -/
def restart (ext : Collaborators) (cfg : MiningConfig) (m : Manager)
    (templates : List (Option TemplateResponse)) : Manager :=
  match requestMiningParameters templates with
  | none => { m with status := .retrying }
  | some params =>
    match adjustBlockTemplate ext cfg m.m_lastBlockTimestamp params.blockTemplate with
    | .error e =>
      { m with calls := m.calls ++ [Call.requestMiningParameters], status := .threw e }
    | .ok t =>
      { m with
        calls := m.calls ++ [Call.requestMiningParameters, Call.startBlockchainMonitoring,
          Call.startMining { params with blockTemplate := t }] }

/-- One iteration of the `while (true)` of `MinerManager::eventLoop`
(MinerManager.cpp 117-161): `waitEvent` takes the front of the queue (and
blocks on an empty queue), then the `switch` runs. `spurious` is a spurious
failure of the compare-and-swap inside `Miner::stop`; `submitResponse` and
`templates` are the daemon's answers during this iteration. -/
def eventLoopIteration (ext : Collaborators) (cfg : MiningConfig) (m : Manager)
    (spurious : Bool) (submitResponse : Option Nat)
    (templates : List (Option TemplateResponse)) : Manager :=
  match m.status with
  | .running =>
    match m.m_events with
    | [] => m
    | .BLOCK_MINED :: rest =>
      if submitBlock submitResponse then
        if cfg.blocksLimit ≠ 0 then
          if (m.blocksMined + 1) % 2 ^ 64 = cfg.blocksLimit then
            { m with
              m_events := rest
              calls := m.calls ++
                [Call.stopBlockchainMonitoring, Call.submitBlock m.m_minedBlock true]
              m_lastBlockTimestamp := m.m_minedBlock.timestamp
              blocksMined := (m.blocksMined + 1) % 2 ^ 64
              status := .returned }
          else
            restart ext cfg
              { m with
                m_events := rest
                calls := m.calls ++
                  [Call.stopBlockchainMonitoring, Call.submitBlock m.m_minedBlock true]
                m_lastBlockTimestamp := m.m_minedBlock.timestamp
                blocksMined := (m.blocksMined + 1) % 2 ^ 64 } templates
        else
          restart ext cfg
            { m with
              m_events := rest
              calls := m.calls ++
                [Call.stopBlockchainMonitoring, Call.submitBlock m.m_minedBlock true]
              m_lastBlockTimestamp := m.m_minedBlock.timestamp } templates
      else
        restart ext cfg
          { m with
            m_events := rest
            calls := m.calls ++
              [Call.stopBlockchainMonitoring, Call.submitBlock m.m_minedBlock false] }
          templates
    | .BLOCKCHAIN_UPDATED :: rest =>
      restart ext cfg
        { m with
          m_events := rest
          minerState :=
            if m.minerState = .MINING_IN_PROGRESS ∧ spurious = false then .MINING_STOPPED
            else m.minerState
          calls := m.calls ++ [Call.stopMining, Call.stopBlockchainMonitoring] } templates
  | _ => m

/-- What can happen next in the manager's dispatcher: the task spawned by
`startMining` resumes after `m_miner.mine` ended with `r` (lines 192-194), the
task spawned by `startBlockchainMonitoring` resumes after `waitBlockchainUpdate`
(`updated = false`: it was interrupted; lines 215-217), the miner's own threads
write its state, or the event loop runs one iteration. -/
inductive Step where
  | miningTask (r : Miner.MineResult)
  | monitoringTask (updated : Bool)
  | miner (st : MiningState)
  | eventLoop (spurious : Bool) (submitResponse : Option Nat)
      (templates : List (Option TemplateResponse))
  deriving DecidableEq, Repr

/-- Effect of one `Step`. `pushEvent` appends to `m_events`; exceptions of the
two tasks are swallowed by their `catch` blocks. -/
def managerStep (ext : Collaborators) (cfg : MiningConfig) (m : Manager) : Step → Manager
  | .miningTask (.found b) =>
    { m with m_minedBlock := b, m_events := m.m_events ++ [MinerEventType.BLOCK_MINED] }
  | .miningTask (.failed _) => m
  | .monitoringTask true =>
    { m with m_events := m.m_events ++ [MinerEventType.BLOCKCHAIN_UPDATED] }
  | .monitoringTask false => m
  | .miner st => { m with minerState := st }
  | .eventLoop spurious submitResponse templates =>
    eventLoopIteration ext cfg m spurious submitResponse templates

/-- A run of the manager under a sequence of steps. -/
def runManager (ext : Collaborators) (cfg : MiningConfig) (m : Manager)
    (steps : List Step) : Manager :=
  steps.foldl (managerStep ext cfg) m

/-- The manager when `eventLoop` is entered from `start()` (line 115). -/
def eventLoopEntry (m_lastBlockTimestamp : Nat) (m_minedBlock : BlockTemplate)
    (minerState : MiningState) : Manager :=
  { blocksMined := 0, m_lastBlockTimestamp := m_lastBlockTimestamp,
    m_minedBlock := m_minedBlock, m_events := [], minerState := minerState,
    status := .running, calls := [] }

/-- Whether a call is a `submitBlock` that returned `true`. -/
def Call.isAccepted : Call → Bool
  | .submitBlock _ true => true
  | _ => false

/-- Number of `submitBlock` calls that returned `true`. -/
def acceptedSubmits (calls : List Call) : Nat :=
  calls.countP Call.isAccepted

/-- Relation between the local `blocksMined`, the accepted submits on record
and the loop status, kept by every step when `blocksLimit < 2^64`. -/
@[reducible] def LimitInv (cfg : MiningConfig) (m : Manager) : Prop :=
  (cfg.blocksLimit = 0 → m.status ≠ .returned) ∧
  (1 ≤ cfg.blocksLimit →
    m.blocksMined = acceptedSubmits m.calls ∧
    (m.status ≠ .returned → acceptedSubmits m.calls < cfg.blocksLimit) ∧
    (m.status = .returned → acceptedSubmits m.calls = cfg.blocksLimit ∧
      ∃ pre b, m.calls = pre ++ [Call.submitBlock b true]))

/-- A configuration without block limit and without timestamp adjustment. -/
def sampleConfig : MiningConfig :=
  { threadCount := 2, blocksLimit := 0, firstBlockTimestamp := 0, blockTimestampInterval := 0 }

/-- The block found by the first attempt of `staleSteps`. -/
def staleBlock : BlockTemplate :=
  { majorVersion := 1, timestamp := 1000, nonce := 77, parentExtra := [], content := [1, 2] }

/-- The template the daemon hands out after the chain tip has moved. -/
def freshParams : BlockMiningParameters :=
  { blockTemplate :=
      { majorVersion := 1, timestamp := 2000, nonce := 0, parentExtra := [], content := [3] },
    difficulty := 1 }

/-- The first attempt is mining; a worker finds `staleBlock`; the monitor
reports a new tip; the mining task stores the block and pushes `BLOCK_MINED`;
the event loop then drains `BLOCKCHAIN_UPDATED` and after it `BLOCK_MINED`. -/
def staleSteps : List Step :=
  [.miner .BLOCK_FOUND,
   .monitoringTask true,
   .miningTask (.found staleBlock),
   .eventLoop false none [some { status := 201, body := some freshParams }],
   .eventLoop false (some 202) [some { status := 201, body := some freshParams }]]

/-- Whether a call is a `submitBlock`, accepted or not. -/
def Call.isSubmit : Call → Bool
  | .submitBlock _ _ => true
  | _ => false

/-- Number of `submitBlock` calls on record. -/
def submitCount (calls : List Call) : Nat :=
  calls.countP Call.isSubmit

/-- Number of `BLOCK_MINED` events waiting in the queue. -/
def minedCount (events : List MinerEventType) : Nat :=
  events.count MinerEventType.BLOCK_MINED

end MinerManager

/-! ## Theorems -/

namespace MinerManager

open CryptoNote

theorem adjustMergeMiningTag_timestamp (ext : Collaborators) (t t1 : BlockTemplate)
    (h : adjustMergeMiningTag ext t = .ok t1) :
    t1.timestamp = t.timestamp ∧ t1.majorVersion = t.majorVersion := by
  unfold adjustMergeMiningTag at h
  split at h
  · simp only at h
    split at h
    · cases h; exact ⟨rfl, rfl⟩
    · cases h
  · cases h; exact ⟨rfl, rfl⟩

/-- C7: whenever the merge-mining step does not raise, `adjustBlockTemplate`
returns a template whose timestamp is `firstBlockTimestamp` on the first attempt
of a run with `firstBlockTimestamp ≠ 0`, `m_lastBlockTimestamp +
blockTimestampInterval` (64-bit) on a later attempt with a non-zero interval,
and the template's own timestamp in every other case. -/
theorem adjustBlockTemplate_timestamp (ext : Collaborators) (cfg : MiningConfig)
    (last : Nat) (t : BlockTemplate)
    (hTag : t.majorVersion < BLOCK_MAJOR_VERSION_2 ∨
      (ext.appendMergeMiningTagToExtra []
        { depth := 0, merkleRoot := ext.getMerkleRoot t }).1 = true) :
    ∃ t1, adjustBlockTemplate ext cfg last t = .ok t1 ∧
      (cfg.firstBlockTimestamp ≠ 0 → last = 0 → t1.timestamp = cfg.firstBlockTimestamp) ∧
      (cfg.firstBlockTimestamp ≠ 0 → last ≠ 0 → cfg.blockTimestampInterval ≠ 0 →
        t1.timestamp = (last + cfg.blockTimestampInterval) % 2 ^ 64) ∧
      (cfg.firstBlockTimestamp = 0 ∨ (last ≠ 0 ∧ cfg.blockTimestampInterval = 0) →
        t1.timestamp = t.timestamp) := by
  obtain ⟨t0, h0⟩ : ∃ t0, adjustMergeMiningTag ext t = .ok t0 := by
    unfold adjustMergeMiningTag
    rcases hTag with h | h
    · rw [if_neg (by omega)]; exact ⟨_, rfl⟩
    · by_cases hv : t.majorVersion ≥ BLOCK_MAJOR_VERSION_2
      · rw [if_pos hv]; simp only [h, if_true]; exact ⟨_, rfl⟩
      · rw [if_neg hv]; exact ⟨_, rfl⟩
  have hts := (adjustMergeMiningTag_timestamp ext t t0 h0).1
  refine ⟨adjustTimestamp cfg last t0, by simp [adjustBlockTemplate, h0], ?_, ?_, ?_⟩
  · intro h1 h2
    simp [adjustTimestamp, h1, h2]
  · intro h1 h2 h3
    simp [adjustTimestamp, h1, h2, h3, add64]
  · rintro (h | ⟨h1, h2⟩)
    · simp [adjustTimestamp, h, hts]
    · by_cases hf : cfg.firstBlockTimestamp = 0
      · simp [adjustTimestamp, hf, hts]
      · simp [adjustTimestamp, hf, h1, h2, hts]

/-- Witness for C7: first attempt of a run with `firstBlockTimestamp = 500`. -/
theorem adjustBlockTemplate_timestamp_witness :
    ∃ t1, adjustBlockTemplate sampleCollaborators
        { threadCount := 2, blocksLimit := 0, firstBlockTimestamp := 500,
          blockTimestampInterval := 30 } 0 sampleTemplate = .ok t1 ∧
      ((500 : Nat) ≠ 0 → (0 : Nat) = 0 → t1.timestamp = 500) ∧
      ((500 : Nat) ≠ 0 → (0 : Nat) ≠ 0 → (30 : Nat) ≠ 0 → t1.timestamp = (0 + 30) % 2 ^ 64) ∧
      ((500 : Nat) = 0 ∨ ((0 : Nat) ≠ 0 ∧ (30 : Nat) = 0) → t1.timestamp = 1000) :=
  adjustBlockTemplate_timestamp sampleCollaborators
    { threadCount := 2, blocksLimit := 0, firstBlockTimestamp := 500,
      blockTimestampInterval := 30 } 0 sampleTemplate (Or.inr rfl)

theorem adjustTimestamp_fields (cfg : MiningConfig) (last : Nat) (t : BlockTemplate) :
    (adjustTimestamp cfg last t).majorVersion = t.majorVersion ∧
    (adjustTimestamp cfg last t).parentExtra = t.parentExtra ∧
    (adjustTimestamp cfg last t).nonce = t.nonce ∧
    (adjustTimestamp cfg last t).content = t.content := by
  unfold adjustTimestamp
  split
  · exact ⟨rfl, rfl, rfl, rfl⟩
  · split
    · exact ⟨rfl, rfl, rfl, rfl⟩
    · split <;> exact ⟨rfl, rfl, rfl, rfl⟩

theorem adjustTimestamp_idem (cfg : MiningConfig) (last : Nat) (t : BlockTemplate) :
    adjustTimestamp cfg last (adjustTimestamp cfg last t) = adjustTimestamp cfg last t := by
  unfold adjustTimestamp
  by_cases h1 : cfg.firstBlockTimestamp = 0
  · simp [h1]
  · by_cases h2 : last = 0
    · simp [h1, h2]
    · by_cases h3 : cfg.blockTimestampInterval = 0
      · simp [h1, h2, h3]
      · simp [h1, h2, h3]

/-- C8: for a template with `majorVersion ≥ 2`, a fixed configuration and a
fixed `m_lastBlockTimestamp`, running `adjustBlockTemplate` on its own result
gives that result again, and the tag written is
`(depth = 0, merkleRoot = getMerkleRoot template)` appended to the emptied
`extra`. The merkle root is a collaborator; on this template it is assumed not
to read the two fields this function writes (`parentBlock.baseTransaction.extra`
and `timestamp`). -/
theorem adjustBlockTemplate_idempotent (ext : Collaborators) (cfg : MiningConfig)
    (last : Nat) (t : BlockTemplate)
    (hv : t.majorVersion ≥ BLOCK_MAJOR_VERSION_2)
    (hroot : ∀ (extra : List Nat) (ts : Nat),
      ext.getMerkleRoot { t with parentExtra := extra, timestamp := ts } = ext.getMerkleRoot t) :
    (adjustBlockTemplate ext cfg last t >>= adjustBlockTemplate ext cfg last)
        = adjustBlockTemplate ext cfg last t ∧
    ∀ t1, adjustBlockTemplate ext cfg last t = .ok t1 →
      t1.parentExtra = (ext.appendMergeMiningTagToExtra []
          { depth := 0, merkleRoot := ext.getMerkleRoot t }).2 ∧
      adjustBlockTemplate ext cfg last t1 = .ok t1 := by
  have key : ∀ t1, adjustBlockTemplate ext cfg last t = .ok t1 →
      t1.parentExtra = (ext.appendMergeMiningTagToExtra []
          { depth := 0, merkleRoot := ext.getMerkleRoot t }).2 ∧
      adjustBlockTemplate ext cfg last t1 = .ok t1 := by
    intro t1 h1
    unfold adjustBlockTemplate adjustMergeMiningTag at h1
    rw [if_pos hv] at h1
    simp only at h1
    by_cases ha : (ext.appendMergeMiningTagToExtra []
        { depth := 0, merkleRoot := ext.getMerkleRoot t }).1 = true
    · rw [if_pos ha] at h1
      simp only [Except.ok.injEq] at h1
      subst h1
      obtain ⟨f1, f2, -, -⟩ := adjustTimestamp_fields cfg last
        { t with parentExtra := (ext.appendMergeMiningTagToExtra []
          { depth := 0, merkleRoot := ext.getMerkleRoot t }).2 }
      refine ⟨f2, ?_⟩
      set t0 : BlockTemplate := { t with parentExtra := (ext.appendMergeMiningTagToExtra []
          { depth := 0, merkleRoot := ext.getMerkleRoot t }).2 } with ht0
      have hr : ext.getMerkleRoot (adjustTimestamp cfg last t0) = ext.getMerkleRoot t := by
        have e1 : adjustTimestamp cfg last t0 =
            { t with parentExtra := t0.parentExtra,
                     timestamp := (adjustTimestamp cfg last t0).timestamp } := by
          obtain ⟨g1, g2, g3, g4⟩ := adjustTimestamp_fields cfg last t0
          cases hq : adjustTimestamp cfg last t0
          rw [hq] at g1 g2 g3 g4
          simp only at g1 g2 g3 g4
          subst g1 g2 g3 g4
          rfl
        rw [e1]
        exact hroot _ _
      unfold adjustBlockTemplate adjustMergeMiningTag
      rw [if_pos (by rw [f1]; exact hv)]
      simp only [hr, ha, if_true]
      have e2 : ∀ (a : BlockTemplate) (x : List Nat), a.parentExtra = x →
          ({ a with parentExtra := x } : BlockTemplate) = a := by
        intro a x h; subst h; rfl
      rw [e2 (adjustTimestamp cfg last t0) (ext.appendMergeMiningTagToExtra []
          { depth := 0, merkleRoot := ext.getMerkleRoot t }).2 f2, adjustTimestamp_idem]
    · rw [if_neg ha] at h1
      cases h1
  refine ⟨?_, key⟩
  cases h : adjustBlockTemplate ext cfg last t with
  | error e => rfl
  | ok t1 =>
    have := (key t1 h).2
    show adjustBlockTemplate ext cfg last t1 = _
    exact this

/-- Witness for C8: the sample collaborators take the merkle root over `content`. -/
theorem adjustBlockTemplate_idempotent_witness :
    (adjustBlockTemplate sampleCollaborators
        { threadCount := 2, blocksLimit := 0, firstBlockTimestamp := 500,
          blockTimestampInterval := 30 } 7 sampleTemplate >>=
      adjustBlockTemplate sampleCollaborators
        { threadCount := 2, blocksLimit := 0, firstBlockTimestamp := 500,
          blockTimestampInterval := 30 } 7)
      = adjustBlockTemplate sampleCollaborators
        { threadCount := 2, blocksLimit := 0, firstBlockTimestamp := 500,
          blockTimestampInterval := 30 } 7 sampleTemplate :=
  (adjustBlockTemplate_idempotent sampleCollaborators
    { threadCount := 2, blocksLimit := 0, firstBlockTimestamp := 500,
      blockTimestampInterval := 30 } 7 sampleTemplate (by decide)
    (fun _ _ => rfl)).1

end MinerManager

namespace Miner

open CryptoNote

theorem startNonce_eq (seed i : Nat) (hseed : seed < 2 ^ 32) :
    startNonce seed i = (seed + i) % 2 ^ 32 := by
  induction i with
  | zero => show seed = (seed + 0) % 2 ^ 32; rw [Nat.add_zero, Nat.mod_eq_of_lt hseed]
  | succ i ih =>
    simp only [startNonce, add32, ih]
    omega

theorem workerNonce_eq (start step k : Nat) (hstart : start < 2 ^ 32) :
    workerNonce start step k = (start + k * step) % 2 ^ 32 := by
  induction k with
  | zero => show start = (start + 0 * step) % 2 ^ 32; rw [Nat.zero_mul, Nat.add_zero, Nat.mod_eq_of_lt hstart]
  | succ k ih =>
    simp only [workerNonce, add32, ih, Nat.add_mul, one_mul]
    rw [Nat.mod_add_mod, Nat.add_assoc]

theorem startNonce_lt (seed i : Nat) (hseed : seed < 2 ^ 32) : startNonce seed i < 2 ^ 32 := by
  rw [startNonce_eq seed i hseed]
  exact Nat.mod_lt _ (by norm_num)

theorem examinedNonce_eq (seed n i k : Nat) (hseed : seed < 2 ^ 32) (hn : n < 2 ^ 32) :
    examinedNonce seed n i k = (seed + (i + k * n)) % 2 ^ 32 := by
  unfold examinedNonce nonceStepOf
  rw [workerNonce_eq _ _ _ (startNonce_lt seed i hseed), startNonce_eq seed i hseed,
    Nat.mod_eq_of_lt hn, Nat.mod_add_mod, Nat.add_assoc]

theorem spawnTemplates_nonce (t : BlockTemplate) (n i : Nat) (hi : i < n) :
    ((spawnTemplates t n).map (fun b => b.nonce))[i]? = some (startNonce t.nonce i) := by
  induction n generalizing t i with
  | zero => omega
  | succ n ih =>
    cases i with
    | zero => simp [spawnTemplates, startNonce]
    | succ i =>
      simp only [spawnTemplates, List.map_cons, List.getElem?_cons_succ]
      rw [ih _ i (by omega)]
      congr 1
      clear ih hi
      induction i with
      | zero => simp [startNonce]
      | succ i ih2 => simp only [startNonce, ih2]

/-- C4 (as stated, refuted): with three workers and seed `0`, worker `0` reaches
nonce `1` in its iteration `2863311531` (after its nonce has wrapped twice),
the nonce worker `1` examines first. -/
theorem nonce_partition_counterexample :
    (0 : Nat) ≠ 1 ∧ (0 : Nat) < 3 ∧ (1 : Nat) < 3 ∧
      examinedNonce 0 3 0 2863311531 = examinedNonce 0 3 1 0 := by
  refine ⟨by decide, by decide, by decide, ?_⟩
  rw [examinedNonce_eq 0 3 0 _ (by norm_num) (by norm_num),
    examinedNonce_eq 0 3 1 0 (by norm_num) (by norm_num)]
  norm_num

/-- C4 (amended): for a 32-bit seed and `1 ≤ N < 2^32` workers, two different
workers never examine the same nonce as long as each worker's accumulated
offset `i + k * N` stays below `2^32` (no worker has gone once around the
nonce space), and for every number of iterations when `N` divides `2^32`. -/
theorem nonce_partition (seed n i j k l : Nat) (hseed : seed < 2 ^ 32)
    (_ : 1 ≤ n) (hn2 : n < 2 ^ 32) (hi : i < n) (hj : j < n) (hij : i ≠ j)
    (hrange : n ∣ 2 ^ 32 ∨ (i + k * n < 2 ^ 32 ∧ j + l * n < 2 ^ 32)) :
    examinedNonce seed n i k ≠ examinedNonce seed n j l := by
  rw [examinedNonce_eq seed n i k hseed hn2, examinedNonce_eq seed n j l hseed hn2]
  intro h
  have h1 : i + k * n ≡ j + l * n [MOD 2 ^ 32] := Nat.ModEq.add_left_cancel' seed h
  have h2 : i + k * n ≡ j + l * n [MOD n] := by
    rcases hrange with hd | ⟨ha, hb⟩
    · exact Nat.ModEq.of_dvd hd h1
    · have : i + k * n = j + l * n := by
        have := h1
        unfold Nat.ModEq at this
        rwa [Nat.mod_eq_of_lt ha, Nat.mod_eq_of_lt hb] at this
      rw [this]
  unfold Nat.ModEq at h2
  rw [Nat.add_mul_mod_self_right, Nat.add_mul_mod_self_right, Nat.mod_eq_of_lt hi,
    Nat.mod_eq_of_lt hj] at h2
  exact hij h2

/-- Witness for C4 (amended): seed `2^32 - 1`, four workers, workers 1 and 2. -/
theorem nonce_partition_witness :
    examinedNonce 4294967295 4 1 5 ≠ examinedNonce 4294967295 4 2 1000000000 :=
  nonce_partition 4294967295 4 1 2 5 1000000000 (by norm_num) (by norm_num) (by norm_num)
    (by norm_num) (by norm_num) (by norm_num) (Or.inl ⟨2 ^ 30, by norm_num⟩)

end Miner

namespace Miner
open CryptoNote

theorem run_nil (ext : Collaborators) (s : System) : run ext s [] = s := rfl

theorem run_cons (ext : Collaborators) (s : System) (a : Action) (l : List Action) :
    run ext s (a :: l) = run ext (step ext s a) l := rfl

theorem run_append (ext : Collaborators) (s : System) (l1 l2 : List Action) :
    run ext s (l1 ++ l2) = run ext (run ext s l1) l2 := by
  simp [run, List.foldl_append]

theorem zeroCall_step (ext : Collaborators) (blk : BlockTemplate) (hc : Nat) (s : System)
    (a : Action) (h : ZeroCall blk hc s) :
    ZeroCall blk hc (step ext s a) ∧
    (s.minePc = .returned (.failed .threadCountZero) →
      (step ext s a).minePc = .returned (.failed .threadCountZero)) ∧
    ((∃ b, a = Action.mine b) →
      (step ext s a).minePc = .returned (.failed .threadCountZero)) ∧
    ((∀ b, a ≠ Action.stop b) → (step ext s a).m_state = s.m_state) := by
  obtain ⟨h1, h2, h3, h4, h5, h6⟩ := h
  cases a with
  | mine b =>
    rcases h5 with h5 | h5
    · simp [step, mine, h5, h1, ZeroCall, h2, h3, h4]
      exact h6
    · simp [step, mine, h5, h1, ZeroCall, h2, h3, h4]
      exact h6
  | worker i b =>
    have : workerFunc ext s i b = s := by simp [workerFunc, h2]
    rw [show step ext s (Action.worker i b) = s from this]
    refine ⟨⟨h1, h2, h3, h4, h5, h6⟩, fun h => h, ?_, fun _ => rfl⟩
    rintro ⟨b, hb⟩
    cases hb
  | stop b =>
    refine ⟨?_, ?_, ?_, fun h => absurd rfl (h b)⟩
    rotate_left 2
    · rintro ⟨b, hb⟩
      cases hb
    · simp only [step, stop]
      split
      · refine ⟨h1, h2, h3, h4, h5, ?_⟩
        intro e he
        simp only [List.mem_append, List.mem_singleton] at he
        rcases he with he | he
        · exact h6 e he
        · exact he
      · exact ⟨h1, h2, h3, h4, h5, h6⟩
    · intro h
      simp only [step, stop]
      split <;> exact h

theorem zeroCall_run (ext : Collaborators) (blk : BlockTemplate) (hc : Nat)
    (schedule : List Action) (s : System) (h : ZeroCall blk hc s) :
    ZeroCall blk hc (run ext s schedule) ∧
    ((s.minePc = .returned (.failed .threadCountZero) ∨ ∃ b, Action.mine b ∈ schedule) →
      (run ext s schedule).minePc = .returned (.failed .threadCountZero)) ∧
    ((∀ b, Action.stop b ∉ schedule) → (run ext s schedule).m_state = s.m_state) := by
  induction schedule generalizing s with
  | nil =>
    refine ⟨h, ?_, fun _ => rfl⟩
    rintro (h | ⟨b, hb⟩)
    · exact h
    · cases hb
  | cons a l ih =>
    obtain ⟨k1, k2, k3, k4⟩ := zeroCall_step ext blk hc s a h
    obtain ⟨i1, i2, i3⟩ := ih (step ext s a) k1
    rw [run_cons]
    refine ⟨i1, ?_, ?_⟩
    · rintro (h | ⟨b, hb⟩)
      · exact i2 (Or.inl (k2 h))
      · rcases List.mem_cons.1 hb with hb | hb
        · exact i2 (Or.inl (k3 ⟨b, hb.symm⟩))
        · exact i2 (Or.inr ⟨b, hb⟩)
    · intro hs
      rw [i3 (fun b hb => hs b (List.mem_cons_of_mem _ hb)),
        k4 (fun b hb => hs b (by rw [hb]; exact List.mem_cons_self _ _))]

theorem workerFunc_frame (ext : Collaborators) (s : System) (i : Nat) (b : Bool) :
    (workerFunc ext s i b).workers.length = s.workers.length ∧
    (workerFunc ext s i b).minePc = s.minePc ∧
    (workerFunc ext s i b).threadCount = s.threadCount := by
  unfold workerFunc
  split
  · exact ⟨rfl, rfl, rfl⟩
  · split
    · split <;> exact ⟨List.length_set _ _ _, rfl, rfl⟩
    · split
      · exact ⟨List.length_set _ _ _, rfl, rfl⟩
      · split <;> exact ⟨List.length_set _ _ _, rfl, rfl⟩
    · exact ⟨List.length_set _ _ _, rfl, rfl⟩
    · exact ⟨List.length_set _ _ _, rfl, rfl⟩
    · exact ⟨List.length_set _ _ _, rfl, rfl⟩
    · split <;> exact ⟨List.length_set _ _ _, rfl, rfl⟩
    · exact ⟨List.length_set _ _ _, rfl, rfl⟩
    · exact ⟨rfl, rfl, rfl⟩

theorem stop_frame (s : System) (b : Bool) :
    (stop s b).workers = s.workers ∧ (stop s b).minePc = s.minePc ∧
    (stop s b).threadCount = s.threadCount := by
  unfold stop
  split <;> exact ⟨rfl, rfl, rfl⟩

theorem zeroThreads_run (ext : Collaborators) (n : Nat) (schedule : List Action) (s : System)
    (h0 : s.threadCount = 0) (hn : s.workers.length = n)
    (hp : s.minePc = .entry ∨ s.minePc = .returned (.failed .threadCountZero)) :
    (run ext s schedule).workers.length = n ∧
    ((s.minePc = .returned (.failed .threadCountZero) ∨ ∃ b, Action.mine b ∈ schedule) →
      (run ext s schedule).minePc = .returned (.failed .threadCountZero)) := by
  induction schedule generalizing s with
  | nil =>
    refine ⟨hn, ?_⟩
    rintro (h | ⟨b, hb⟩)
    · exact h
    · cases hb
  | cons a l ih =>
    rw [run_cons]
    cases a with
    | mine b =>
      have hm : (step ext s (.mine b)).threadCount = 0 ∧
          (step ext s (.mine b)).workers.length = n ∧
          (step ext s (.mine b)).minePc = .returned (.failed .threadCountZero) := by
        rcases hp with hp | hp
        · simp [step, mine, hp, h0, hn]
        · simp [step, mine, hp, h0, hn]
      obtain ⟨i1, i2⟩ := ih _ hm.1 hm.2.1 (Or.inr hm.2.2)
      exact ⟨i1, fun _ => i2 (Or.inl hm.2.2)⟩
    | worker i b =>
      obtain ⟨f1, f2, f3⟩ := workerFunc_frame ext s i b
      obtain ⟨i1, i2⟩ := ih (step ext s (.worker i b)) (by rw [← h0]; exact f3)
        (by rw [← hn]; exact f1) (by rw [show (step ext s (.worker i b)).minePc = s.minePc from f2]; exact hp)
      refine ⟨i1, ?_⟩
      rintro (h | ⟨c, hc⟩)
      · exact i2 (Or.inl (by rw [show (step ext s (.worker i b)).minePc = s.minePc from f2]; exact h))
      · rcases List.mem_cons.1 hc with hc | hc
        · cases hc
        · exact i2 (Or.inr ⟨c, hc⟩)
    | stop b =>
      obtain ⟨f1, f2, f3⟩ := stop_frame s b
      obtain ⟨i1, i2⟩ := ih (step ext s (.stop b)) (by rw [← h0]; exact f3)
        (by rw [← hn]; exact congrArg List.length f1)
        (by rw [show (step ext s (.stop b)).minePc = s.minePc from f2]; exact hp)
      refine ⟨i1, ?_⟩
      rintro (h | ⟨c, hc⟩)
      · exact i2 (Or.inl (by rw [show (step ext s (.stop b)).minePc = s.minePc from f2]; exact h))
      · rcases List.mem_cons.1 hc with hc | hc
        · cases hc
        · exact i2 (Or.inr ⟨c, hc⟩)

/-- C3: a call `mine(params, 0)` on a miner in any state, with any parameters
and any workers left on record, ends with the error of line 31 at the first
step of the calling context, also when the state is `MINING_IN_PROGRESS` (the
thread-count check comes first), and that step changes nothing else. Under
every schedule the call spawns no worker. On a miner with no worker left on
record, under every schedule: no worker exists, no worker event is recorded,
`m_block` and the hash counter keep their values, and `m_state` keeps its
value unless a separate `stop()` runs. -/
theorem mine_zero_threads (ext : Collaborators) (st : MiningState) (blk : BlockTemplate)
    (hc : Nat) (leftover : List Worker) (params : BlockMiningParameters) (seed : Nat)
    (schedule : List Action) :
    (∀ b, mine (call st blk hc leftover params 0 seed) b =
      { call st blk hc leftover params 0 seed with
        minePc := .returned (.failed .threadCountZero) }) ∧
    (run ext (call st blk hc [] params 0 seed) schedule).workers = [] ∧
    (run ext (call st blk hc [] params 0 seed) schedule).m_block = blk ∧
    (run ext (call st blk hc [] params 0 seed) schedule).m_hash_count = hc ∧
    (∀ e ∈ (run ext (call st blk hc [] params 0 seed) schedule).log, e = Event.stopCas) ∧
    ((∃ b, Action.mine b ∈ schedule) →
      (run ext (call st blk hc [] params 0 seed) schedule).minePc =
        .returned (.failed .threadCountZero)) ∧
    ((∀ b, Action.stop b ∉ schedule) →
      (run ext (call st blk hc [] params 0 seed) schedule).m_state = st) ∧
    (run ext (call st blk hc leftover params 0 seed) schedule).workers.length =
      leftover.length ∧
    ((∃ b, Action.mine b ∈ schedule) →
      (run ext (call st blk hc leftover params 0 seed) schedule).minePc =
        .returned (.failed .threadCountZero)) := by
  have h0 : ZeroCall blk hc (call st blk hc [] params 0 seed) :=
    ⟨rfl, rfl, rfl, rfl, Or.inl rfl, fun e he => by cases he⟩
  obtain ⟨⟨-, h2, h3, h4, -, h6⟩, i2, i3⟩ := zeroCall_run ext blk hc schedule _ h0
  obtain ⟨g1, g2⟩ := zeroThreads_run ext leftover.length schedule
    (call st blk hc leftover params 0 seed) rfl rfl (Or.inl rfl)
  exact ⟨fun b => rfl, h2, h3, h4, h6, fun h => i2 (Or.inr h), i3, g1,
    fun h => g2 (Or.inr h)⟩

/-- Witness for C3: the call is made while mining is in progress, and a worker
step and a second step of the caller are scheduled after it. -/
theorem mine_zero_threads_witness :
    (run MinerManager.sampleCollaborators
      (call .MINING_IN_PROGRESS MinerManager.sampleTemplate 5 []
        { blockTemplate := MinerManager.sampleTemplate, difficulty := 1 } 0 7)
      [.mine false, .worker 0 false, .mine false]).minePc =
        .returned (.failed .threadCountZero) ∧
    (run MinerManager.sampleCollaborators
      (call .MINING_IN_PROGRESS MinerManager.sampleTemplate 5 []
        { blockTemplate := MinerManager.sampleTemplate, difficulty := 1 } 0 7)
      [.mine false, .worker 0 false, .mine false]).m_state = .MINING_IN_PROGRESS :=
  ⟨(mine_zero_threads MinerManager.sampleCollaborators .MINING_IN_PROGRESS
      MinerManager.sampleTemplate 5 []
      { blockTemplate := MinerManager.sampleTemplate, difficulty := 1 } 7
      [.mine false, .worker 0 false, .mine false]).2.2.2.2.2.1 ⟨false, by decide⟩,
   (mine_zero_threads MinerManager.sampleCollaborators .MINING_IN_PROGRESS
      MinerManager.sampleTemplate 5 []
      { blockTemplate := MinerManager.sampleTemplate, difficulty := 1 } 7
      [.mine false, .worker 0 false, .mine false]).2.2.2.2.2.2.1 (by decide)⟩

end Miner

namespace Miner
open CryptoNote

/-- C9 (as stated, refuted): with two workers and no `stop()` at all, worker 0
moves the state to `BLOCK_FOUND` and stores its block; the hash of worker 1 then
raises and the handler of `workerFunc` stores `MINING_STOPPED`, so the state
leaves `BLOCK_FOUND` without a new `mine()` and the call ends with
`InterruptedException`. -/
theorem m_state_transitions_counterexample :
    (run flakyCollaborators sampleCall foundSchedule).m_state = .BLOCK_FOUND ∧
    (∀ b, Action.stop b ∉ foundSchedule ++ [.worker 1 false, .mine false, .mine false, .mine false]) ∧
    (step flakyCollaborators (run flakyCollaborators sampleCall foundSchedule)
      (.worker 1 false)).m_state = .MINING_STOPPED ∧
    (run flakyCollaborators sampleCall
      (foundSchedule ++ [.worker 1 false, .mine false, .mine false, .mine false])).minePc =
        .returned (.failed .interrupted) := by
  refine ⟨rfl, by decide, rfl, rfl⟩

/-- C9 (amended): a step changes `m_state` only as (1) the compare-and-swap of
`setStateBlockFound` from `MINING_IN_PROGRESS` to `BLOCK_FOUND`, (2) the
compare-and-swap of `stop()` from `MINING_IN_PROGRESS` to `MINING_STOPPED`,
(3) a `catch` handler of `workerFunc` or `runWorkers` storing `MINING_STOPPED`
after an exception, or (4) the entry of the next `mine()`; and `stop()` on a
state other than `MINING_IN_PROGRESS` changes nothing at all. -/
theorem m_state_transitions (ext : Collaborators) (s : System) (a : Action) :
    ((step ext s a).m_state ≠ s.m_state →
      (s.m_state = .MINING_IN_PROGRESS ∧ (step ext s a).m_state = .BLOCK_FOUND ∧
        ∃ i w, a = .worker i false ∧ s.workers[i]? = some w ∧
          w.pc = .sbfSwitch .MINING_IN_PROGRESS) ∨
      (s.m_state = .MINING_IN_PROGRESS ∧ (step ext s a).m_state = .MINING_STOPPED ∧
        a = .stop false) ∨
      ((step ext s a).m_state = .MINING_STOPPED ∧
        ((∃ i b w, a = .worker i b ∧ s.workers[i]? = some w ∧ w.pc = .hashing ∧
            ext.getBlockLongHash w.block = none) ∨
         (∃ i t, a = .mine true ∧ s.minePc = .spawning i t ∧ i < s.threadCount))) ∨
      (s.m_state ≠ .MINING_IN_PROGRESS ∧ (step ext s a).m_state = .MINING_IN_PROGRESS ∧
        ∃ b, a = .mine b ∧ s.minePc = .entry)) ∧
    (s.m_state ≠ .MINING_IN_PROGRESS → ∀ b, step ext s (.stop b) = s) := by
  constructor
  · intro hne
    cases a with
    | mine b =>
      simp only [step] at hne ⊢
      cases hpc : s.minePc with
      | entry =>
        by_cases h1 : s.threadCount = 0
        · simp [mine, hpc, h1] at hne
        · by_cases h2 : s.m_state = .MINING_IN_PROGRESS
          · simp [mine, hpc, h1, h2] at hne
          · right; right; right
            exact ⟨h2, by simp [mine, hpc, h1, h2], b, rfl, rfl⟩
      | spawning i t =>
        by_cases h1 : i < s.threadCount
        · cases b with
          | true =>
            right; right; left
            exact ⟨by simp [mine, hpc, h1], Or.inr ⟨i, t, rfl, rfl, h1⟩⟩
          | false => simp [mine, hpc, h1] at hne
        · simp [mine, hpc, h1] at hne
      | joining =>
        by_cases h1 : s.workers.all (fun w => decide (w.pc = .finished)) = true
        · simp only [mine, hpc, h1, if_true] at hne
          exact absurd rfl hne
        · simp only [mine, hpc, h1] at hne
          exact absurd rfl hne
      | afterRun =>
        by_cases h1 : s.m_state = .MINING_STOPPED
        · simp [mine, hpc, h1] at hne
        · simp [mine, hpc, h1] at hne
      | returned r => simp [mine, hpc] at hne
    | stop b =>
      simp only [step] at hne ⊢
      by_cases h1 : s.m_state = .MINING_IN_PROGRESS ∧ b = false
      · right; left
        refine ⟨h1.1, by simp [stop, h1.1, h1.2], by rw [h1.2]⟩
      · simp only [stop, h1, if_false] at hne
        exact absurd rfl hne
    | worker i b =>
      simp only [step] at hne ⊢
      cases hw : s.workers[i]? with
      | none => simp [workerFunc, hw] at hne
      | some w =>
        cases hpc : w.pc with
        | loopTest =>
          by_cases h1 : s.m_state = .MINING_IN_PROGRESS
          · simp [workerFunc, hw, hpc, h1] at hne
          · simp [workerFunc, hw, hpc, h1] at hne
        | hashing =>
          cases hh : ext.getBlockLongHash w.block with
          | none =>
            right; right; left
            exact ⟨by simp [workerFunc, hw, hpc, hh], Or.inl ⟨i, b, w, rfl, hw, hpc, hh⟩⟩
          | some hash =>
            by_cases h1 : ext.check_hash hash w.difficulty = true
            · simp [workerFunc, hw, hpc, hh, h1] at hne
            · simp [workerFunc, hw, hpc, hh, h1] at hne
        | sbfLoad => simp [workerFunc, hw, hpc] at hne
        | sbfSwitch st =>
          cases st with
          | MINING_STOPPED => simp [workerFunc, hw, hpc] at hne
          | BLOCK_FOUND => simp [workerFunc, hw, hpc] at hne
          | MINING_IN_PROGRESS =>
            by_cases h1 : s.m_state = .MINING_IN_PROGRESS ∧ b = false
            · left
              obtain ⟨h1a, h1b⟩ := h1
              subst h1b
              exact ⟨h1a, by simp [workerFunc, hw, hpc, h1a], i, w, rfl, hw, hpc⟩
            · simp only [workerFunc, hw, hpc, h1, if_false] at hne
              exact absurd rfl hne
        | storeBlock => simp [workerFunc, hw, hpc] at hne
        | finished => simp [workerFunc, hw, hpc] at hne
  · intro h b
    simp [step, stop, h]

/-- Witness for C9 (amended): the winning compare-and-swap of worker 0. -/
theorem m_state_transitions_witness :
    (run flakyCollaborators sampleCall
      [.mine false, .mine false, .mine false, .worker 0 false, .worker 0 false,
       .worker 0 false]).m_state = .MINING_IN_PROGRESS ∧
    (step flakyCollaborators (run flakyCollaborators sampleCall
      [.mine false, .mine false, .mine false, .worker 0 false, .worker 0 false,
       .worker 0 false]) (.worker 0 false)).m_state = .BLOCK_FOUND ∧
    (∀ b, step flakyCollaborators (run flakyCollaborators sampleCall foundSchedule) (.stop b) =
      run flakyCollaborators sampleCall foundSchedule) :=
  ⟨rfl, rfl,
   (m_state_transitions flakyCollaborators (run flakyCollaborators sampleCall foundSchedule)
      (.stop false)).2 (by decide)⟩

end Miner

namespace MinerManager
open CryptoNote

theorem submitBlock_false_iff (res : Option Nat) :
    submitBlock res = false ↔ (res = none ∨ ∃ st, res = some st ∧ st ≠ 202) := by
  cases res with
  | none => simp [submitBlock]
  | some st => simp [submitBlock]

theorem restart_fields (ext : Collaborators) (cfg : MiningConfig) (m : Manager)
    (templates : List (Option TemplateResponse)) :
    (restart ext cfg m templates).blocksMined = m.blocksMined ∧
    (restart ext cfg m templates).m_lastBlockTimestamp = m.m_lastBlockTimestamp ∧
    (restart ext cfg m templates).m_events = m.m_events ∧
    (restart ext cfg m templates).m_minedBlock = m.m_minedBlock ∧
    (restart ext cfg m templates).minerState = m.minerState ∧
    (m.status = .running → (restart ext cfg m templates).status ≠ .returned) ∧
    (∃ tail, (restart ext cfg m templates).calls = m.calls ++ tail ∧
      ∀ c ∈ tail, Call.isAccepted c = false) := by
  unfold restart
  split
  · exact ⟨rfl, rfl, rfl, rfl, rfl, by simp, [], by simp, by simp⟩
  · split
    · exact ⟨rfl, rfl, rfl, rfl, rfl, by simp, _, rfl, by simp [Call.isAccepted]⟩
    · refine ⟨rfl, rfl, rfl, rfl, rfl, ?_, _, rfl, by simp [Call.isAccepted]⟩
      intro h
      show m.status ≠ .returned
      rw [h]
      simp

theorem requestMiningParameters_usable (pre post : List (Option TemplateResponse))
    (params : BlockMiningParameters)
    (hpre : ∀ a ∈ pre, a = none ∨ ∃ r, a = some r ∧ (r.status ≠ 201 ∨ r.body = none)) :
    requestMiningParameters (pre ++ some { status := 201, body := some params } :: post) =
      some params := by
  induction pre with
  | nil => simp [requestMiningParameters]
  | cons a l ih =>
    have hl := ih (fun x hx => hpre x (List.mem_cons_of_mem _ hx))
    rcases hpre a (List.mem_cons_self _ _) with h | ⟨r, h, hr⟩
    · subst h
      simpa [requestMiningParameters] using hl
    · subst h
      rcases hr with hr | hr
      · simpa [requestMiningParameters, hr] using hl
      · by_cases h201 : r.status = 201
        · simpa [requestMiningParameters, h201, hr] using hl
        · simpa [requestMiningParameters, h201] using hl

theorem requestMiningParameters_unusable (templates : List (Option TemplateResponse))
    (h : ∀ a ∈ templates, a = none ∨ ∃ r, a = some r ∧ (r.status ≠ 201 ∨ r.body = none)) :
    requestMiningParameters templates = none := by
  induction templates with
  | nil => rfl
  | cons a l ih =>
    have hl := ih (fun x hx => h x (List.mem_cons_of_mem _ hx))
    rcases h a (List.mem_cons_self _ _) with h1 | ⟨r, h1, hr⟩
    · subst h1
      simpa [requestMiningParameters] using hl
    · subst h1
      rcases hr with hr | hr
      · simpa [requestMiningParameters, hr] using hl
      · by_cases h201 : r.status = 201
        · simpa [requestMiningParameters, h201, hr] using hl
        · simpa [requestMiningParameters, h201] using hl

theorem adjustBlockTemplate_returns (ext : Collaborators) (cfg : MiningConfig) (last : Nat)
    (t : BlockTemplate)
    (hTag : t.majorVersion < BLOCK_MAJOR_VERSION_2 ∨
      (ext.appendMergeMiningTagToExtra []
        { depth := 0, merkleRoot := ext.getMerkleRoot t }).1 = true) :
    ∃ t1, adjustBlockTemplate ext cfg last t = .ok t1 := by
  unfold adjustBlockTemplate adjustMergeMiningTag
  rcases hTag with h | h
  · rw [if_neg (by omega)]
    exact ⟨_, rfl⟩
  · by_cases hv : t.majorVersion ≥ BLOCK_MAJOR_VERSION_2
    · rw [if_pos hv]
      simp only [h, if_true]
      exact ⟨_, rfl⟩
    · rw [if_neg hv]
      exact ⟨_, rfl⟩

/-- C10: when the event loop takes a `BLOCK_MINED` event and `submitBlock`
returns `false` (no response, or a status other than 202), then for any answers
of the daemon the iteration leaves `blocksMined` and `m_lastBlockTimestamp`
unchanged and never returns through line 138. If the daemon, after any number
of unusable answers (no response, a status other than 201, or a body that does
not decode), gives a usable one, and the merge-mining tag can be appended,
`requestMiningParameters` returns those parameters, `adjustBlockTemplate`
returns the adjusted template `t`, and the iteration ends in the same manager
state except that the event is consumed and the calls made are: stop the
monitor, the rejected submit, the request, start the monitor, start mining on
`t`; the loop is still running. If no answer is ever usable, the loop stays in
the retry loop of `requestMiningParameters` after the rejected submit. -/
theorem submit_rejected (ext : Collaborators) (cfg : MiningConfig) (m : Manager)
    (spurious : Bool) (res : Option Nat) (templates : List (Option TemplateResponse))
    (rest : List MinerEventType)
    (hrun : m.status = .running) (hq : m.m_events = .BLOCK_MINED :: rest)
    (hres : res = none ∨ ∃ st, res = some st ∧ st ≠ 202) :
    submitBlock res = false ∧
    (eventLoopIteration ext cfg m spurious res templates).blocksMined = m.blocksMined ∧
    (eventLoopIteration ext cfg m spurious res templates).m_lastBlockTimestamp =
      m.m_lastBlockTimestamp ∧
    (eventLoopIteration ext cfg m spurious res templates).status ≠ .returned ∧
    (∀ pre params post,
      templates = pre ++ some { status := 201, body := some params } :: post →
      (∀ a ∈ pre, a = none ∨ ∃ r, a = some r ∧ (r.status ≠ 201 ∨ r.body = none)) →
      (params.blockTemplate.majorVersion < BLOCK_MAJOR_VERSION_2 ∨
        (ext.appendMergeMiningTagToExtra []
          { depth := 0, merkleRoot := ext.getMerkleRoot params.blockTemplate }).1 = true) →
      requestMiningParameters templates = some params ∧
      ∃ t, adjustBlockTemplate ext cfg m.m_lastBlockTimestamp params.blockTemplate = .ok t ∧
        (eventLoopIteration ext cfg m spurious res templates).status = .running ∧
        eventLoopIteration ext cfg m spurious res templates =
          { m with
            m_events := rest
            calls := m.calls ++
              [Call.stopBlockchainMonitoring, Call.submitBlock m.m_minedBlock false,
               Call.requestMiningParameters, Call.startBlockchainMonitoring,
               Call.startMining { params with blockTemplate := t }] }) ∧
    ((∀ a ∈ templates, a = none ∨ ∃ r, a = some r ∧ (r.status ≠ 201 ∨ r.body = none)) →
      eventLoopIteration ext cfg m spurious res templates =
        { m with
          m_events := rest
          calls := m.calls ++
            [Call.stopBlockchainMonitoring, Call.submitBlock m.m_minedBlock false]
          status := .retrying }) := by
  have hs : submitBlock res = false := (submitBlock_false_iff res).2 hres
  have e : eventLoopIteration ext cfg m spurious res templates =
      restart ext cfg
        { m with
          m_events := rest
          calls := m.calls ++
            [Call.stopBlockchainMonitoring, Call.submitBlock m.m_minedBlock false] }
        templates := by
    unfold eventLoopIteration
    rw [hrun]
    simp only [hq, hs]
    rfl
  rw [e]
  obtain ⟨f1, f2, -, -, -, f6, -⟩ := restart_fields ext cfg
    { m with
      m_events := rest
      calls := m.calls ++
        [Call.stopBlockchainMonitoring, Call.submitBlock m.m_minedBlock false] } templates
  refine ⟨hs, f1, f2, f6 hrun, ?_, ?_⟩
  · intro pre params post htempl hpre hTag
    have hreq : requestMiningParameters templates = some params := by
      rw [htempl]
      exact requestMiningParameters_usable pre post params hpre
    obtain ⟨t, ht⟩ := adjustBlockTemplate_returns ext cfg m.m_lastBlockTimestamp
      params.blockTemplate hTag
    refine ⟨hreq, t, ht, ?_, ?_⟩
    · unfold restart
      simp only [hreq, ht]
      exact hrun
    · unfold restart
      simp only [hreq, ht]
      simp
  · intro hall
    have hreq := requestMiningParameters_unusable templates hall
    unfold restart
    simp only [hreq]

/-- Witness for C10: the daemon answers the submit with status 400, then the
template request with no response, with status 500, and with status 201 and a
version-2 template. -/
theorem submit_rejected_witness :
    (eventLoopIteration sampleCollaborators sampleConfig
      { blocksMined := 0, m_lastBlockTimestamp := 0, m_minedBlock := sampleTemplate,
        m_events := [.BLOCK_MINED], minerState := .BLOCK_FOUND, status := .running,
        calls := [] }
      false (some 400)
      [none, some { status := 500, body := none },
       some { status := 201,
              body := some { blockTemplate := sampleTemplate, difficulty := 1 } }]).status
      = .running ∧
    (eventLoopIteration sampleCollaborators sampleConfig
      { blocksMined := 0, m_lastBlockTimestamp := 0, m_minedBlock := sampleTemplate,
        m_events := [.BLOCK_MINED], minerState := .BLOCK_FOUND, status := .running,
        calls := [] }
      false (some 400)
      [none, some { status := 500, body := none },
       some { status := 201,
              body := some { blockTemplate := sampleTemplate, difficulty := 1 } }]).calls
      = [Call.stopBlockchainMonitoring, Call.submitBlock sampleTemplate false,
         Call.requestMiningParameters, Call.startBlockchainMonitoring,
         Call.startMining
           { blockTemplate := { sampleTemplate with parentExtra := [3, 0, 3] },
             difficulty := 1 }] ∧
    (eventLoopIteration sampleCollaborators sampleConfig
      { blocksMined := 0, m_lastBlockTimestamp := 0, m_minedBlock := sampleTemplate,
        m_events := [.BLOCK_MINED], minerState := .BLOCK_FOUND, status := .running,
        calls := [] }
      false (some 400)
      [none, some { status := 500, body := none },
       some { status := 201,
              body := some { blockTemplate := sampleTemplate, difficulty := 1 } }]).blocksMined
      = 0 := by
  obtain ⟨-, h2, -, -, h5, -⟩ := submit_rejected sampleCollaborators sampleConfig
    { blocksMined := 0, m_lastBlockTimestamp := 0, m_minedBlock := sampleTemplate,
      m_events := [.BLOCK_MINED], minerState := .BLOCK_FOUND, status := .running,
      calls := [] }
    false (some 400)
    [none, some { status := 500, body := none },
     some { status := 201,
            body := some { blockTemplate := sampleTemplate, difficulty := 1 } }]
    [] rfl rfl (Or.inr ⟨400, rfl, by decide⟩)
  obtain ⟨-, t, ht, h6, h7⟩ := h5 [none, some { status := 500, body := none }]
    { blockTemplate := sampleTemplate, difficulty := 1 } [] rfl
    (by
      intro a ha
      simp only [List.mem_cons, List.mem_singleton, List.not_mem_nil, or_false] at ha
      rcases ha with rfl | rfl
      · exact Or.inl rfl
      · exact Or.inr ⟨_, rfl, Or.inl (by decide)⟩)
    (Or.inr rfl)
  have ht' : t = { sampleTemplate with parentExtra := [3, 0, 3] } := by
    have : adjustBlockTemplate sampleCollaborators sampleConfig 0 sampleTemplate =
        .ok { sampleTemplate with parentExtra := [3, 0, 3] } := rfl
    have ht2 : adjustBlockTemplate sampleCollaborators sampleConfig 0 sampleTemplate =
        .ok t := ht
    rw [this] at ht2
    exact (Except.ok.inj ht2).symm
  subst ht'
  refine ⟨h6, ?_, h2⟩
  rw [h7]
  rfl

end MinerManager

namespace MinerManager
open CryptoNote

theorem acceptedSubmits_append_rejected (l tail : List Call)
    (h : ∀ c ∈ tail, Call.isAccepted c = false) :
    acceptedSubmits (l ++ tail) = acceptedSubmits l := by
  unfold acceptedSubmits
  rw [List.countP_append]
  have : List.countP Call.isAccepted tail = 0 := by
    rw [List.countP_eq_zero]
    intro c hc
    rw [h c hc]
    simp
  omega

theorem limitInv_restart (ext : Collaborators) (cfg : MiningConfig) (m : Manager)
    (templates : List (Option TemplateResponse)) (hrun : m.status = .running)
    (h : LimitInv cfg m) : LimitInv cfg (restart ext cfg m templates) := by
  obtain ⟨f1, -, -, -, -, f6, tail, f7, f8⟩ := restart_fields ext cfg m templates
  have hs := f6 hrun
  have hm : m.status ≠ .returned := by rw [hrun]; simp
  refine ⟨fun _ => hs, fun hk => ?_⟩
  obtain ⟨g1, g2, -⟩ := h.2 hk
  rw [f7, acceptedSubmits_append_rejected _ _ f8, f1]
  exact ⟨g1, fun _ => g2 hm, fun hr => absurd hr hs⟩

theorem limitInv_iteration (ext : Collaborators) (cfg : MiningConfig) (m : Manager)
    (spurious : Bool) (res : Option Nat) (templates : List (Option TemplateResponse))
    (hk : cfg.blocksLimit < 2 ^ 64) (h : LimitInv cfg m) :
    LimitInv cfg (eventLoopIteration ext cfg m spurious res templates) := by
  unfold eventLoopIteration
  split
  · rename_i hrun
    have hm : m.status ≠ .returned := by rw [hrun]; simp
    split
    · exact h
    · rename_i rest hq
      by_cases hs : submitBlock res = true
      · rw [if_pos hs]
        by_cases h0 : cfg.blocksLimit = 0
        · rw [if_neg (by simpa using h0)]
          refine limitInv_restart ext cfg _ templates ?_ ?_
          · exact hrun
          exact ⟨fun _ => hm, fun hk1 => by omega⟩
        · rw [if_pos h0]
          obtain ⟨g1, g2, -⟩ := h.2 (by omega)
          have g3 := g2 hm
          have hacc : acceptedSubmits (m.calls ++
              [Call.stopBlockchainMonitoring, Call.submitBlock m.m_minedBlock true]) =
              acceptedSubmits m.calls + 1 := by
            simp [acceptedSubmits, List.countP_append, List.countP_cons, Call.isAccepted]
          have hmod : (m.blocksMined + 1) % 2 ^ 64 = m.blocksMined + 1 :=
            Nat.mod_eq_of_lt (by omega)
          by_cases hl : (m.blocksMined + 1) % 2 ^ 64 = cfg.blocksLimit
          · rw [if_pos hl]
            refine ⟨fun h => absurd h h0, fun _ => ⟨?_, fun hne => absurd rfl hne, fun _ => ⟨?_, ?_⟩⟩⟩
            · show (m.blocksMined + 1) % 2 ^ 64 = acceptedSubmits _
              rw [hacc, hmod, g1]
            · show acceptedSubmits _ = cfg.blocksLimit
              rw [hacc, ← hl, hmod, g1]
            · exact ⟨m.calls ++ [Call.stopBlockchainMonitoring], m.m_minedBlock, by simp⟩
          · rw [if_neg hl]
            refine limitInv_restart ext cfg _ templates ?_ ?_
            · exact hrun
            refine ⟨fun h => absurd h h0, fun _ => ⟨?_, fun _ => ?_, fun hr => ?_⟩⟩
            · show (m.blocksMined + 1) % 2 ^ 64 = acceptedSubmits _
              rw [hacc, hmod, g1]
            · show acceptedSubmits _ < cfg.blocksLimit
              rw [hacc]
              rw [hmod] at hl
              omega
            · exact absurd (show m.status = .returned from hr) hm
      · rw [if_neg hs]
        refine limitInv_restart ext cfg _ templates ?_ ?_
        · exact hrun
        have hacc : acceptedSubmits (m.calls ++
            [Call.stopBlockchainMonitoring, Call.submitBlock m.m_minedBlock false]) =
            acceptedSubmits m.calls :=
          acceptedSubmits_append_rejected _ _ (by simp [Call.isAccepted])
        refine ⟨fun _ => hm, fun hk1 => ?_⟩
        obtain ⟨g1, g2, -⟩ := h.2 hk1
        refine ⟨?_, fun _ => ?_, fun hr => absurd (show m.status = .returned from hr) hm⟩
        · show m.blocksMined = acceptedSubmits _
          rw [hacc, g1]
        · show acceptedSubmits _ < cfg.blocksLimit
          rw [hacc]
          exact g2 hm
    · rename_i rest hq
      refine limitInv_restart ext cfg _ templates ?_ ?_
      · exact hrun
      have hacc : acceptedSubmits (m.calls ++
          [Call.stopMining, Call.stopBlockchainMonitoring]) = acceptedSubmits m.calls :=
        acceptedSubmits_append_rejected _ _ (by simp [Call.isAccepted])
      refine ⟨fun _ => hm, fun hk1 => ?_⟩
      obtain ⟨g1, g2, -⟩ := h.2 hk1
      refine ⟨?_, fun _ => ?_, fun hr => absurd (show m.status = .returned from hr) hm⟩
      · show m.blocksMined = acceptedSubmits _
        rw [hacc, g1]
      · show acceptedSubmits _ < cfg.blocksLimit
        rw [hacc]
        exact g2 hm
  · exact h

theorem limitInv_step (ext : Collaborators) (cfg : MiningConfig) (m : Manager) (a : Step)
    (hk : cfg.blocksLimit < 2 ^ 64) (h : LimitInv cfg m) :
    LimitInv cfg (managerStep ext cfg m a) := by
  cases a with
  | miningTask r =>
    cases r with
    | found b => exact h
    | failed e => exact h
  | monitoringTask u =>
    cases u with
    | true => exact h
    | false => exact h
  | miner st => exact h
  | eventLoop sp res tr => exact limitInv_iteration ext cfg m sp res tr hk h

theorem limitInv_run (ext : Collaborators) (cfg : MiningConfig) (steps : List Step)
    (m : Manager) (hk : cfg.blocksLimit < 2 ^ 64) (h : LimitInv cfg m) :
    LimitInv cfg (runManager ext cfg m steps) := by
  induction steps generalizing m with
  | nil => exact h
  | cons a l ih => exact ih _ (limitInv_step ext cfg m a hk h)

/-- C6: from the entry of `eventLoop`, under every sequence of task steps, miner
steps and loop iterations with any daemon answers: with `blocksLimit = 0` the
loop never returns; with `blocksLimit = k ≥ 1` the number of accepted submits
never exceeds `k`, the loop has returned exactly when that number is `k`
(rejected submits are not counted), and when it has returned the accepted
submit is the last call it made (no template request or start follows). -/
theorem block_limit (ext : Collaborators) (cfg : MiningConfig) (last : Nat)
    (blk : BlockTemplate) (st : MiningState) (steps : List Step)
    (hk : cfg.blocksLimit < 2 ^ 64) :
    (cfg.blocksLimit = 0 →
      (runManager ext cfg (eventLoopEntry last blk st) steps).status ≠ .returned) ∧
    (1 ≤ cfg.blocksLimit →
      acceptedSubmits (runManager ext cfg (eventLoopEntry last blk st) steps).calls
        ≤ cfg.blocksLimit ∧
      ((runManager ext cfg (eventLoopEntry last blk st) steps).status = .returned ↔
        acceptedSubmits (runManager ext cfg (eventLoopEntry last blk st) steps).calls
          = cfg.blocksLimit) ∧
      ((runManager ext cfg (eventLoopEntry last blk st) steps).status = .returned →
        ∃ pre b, (runManager ext cfg (eventLoopEntry last blk st) steps).calls =
          pre ++ [Call.submitBlock b true])) := by
  have h0 : LimitInv cfg (eventLoopEntry last blk st) := by
    refine ⟨fun _ => by simp [eventLoopEntry], fun hk1 => ⟨rfl, fun _ => ?_, fun hr => ?_⟩⟩
    · show 0 < cfg.blocksLimit
      omega
    · simp [eventLoopEntry] at hr
  obtain ⟨h1, h2⟩ := limitInv_run ext cfg steps _ hk h0
  refine ⟨h1, fun hk1 => ?_⟩
  obtain ⟨-, g2, g3⟩ := h2 hk1
  refine ⟨?_, ⟨fun hr => (g3 hr).1, fun he => ?_⟩, fun hr => (g3 hr).2⟩
  · by_cases hr : (runManager ext cfg (eventLoopEntry last blk st) steps).status = .returned
    · exact le_of_eq (g3 hr).1
    · exact le_of_lt (g2 hr)
  · by_contra hr
    have := g2 hr
    omega

end MinerManager

namespace MinerManager
open CryptoNote

/-- Witness for C6: limit 1, one rejected and one accepted submit. -/
theorem block_limit_witness :
    acceptedSubmits (runManager sampleCollaborators
      { threadCount := 2, blocksLimit := 1, firstBlockTimestamp := 0,
        blockTimestampInterval := 0 }
      (eventLoopEntry 0 sampleTemplate .MINING_IN_PROGRESS)
      [.miningTask (.found staleBlock),
       .eventLoop false (some 400) [some { status := 201, body := some freshParams }],
       .miningTask (.found staleBlock),
       .eventLoop false (some 202) []]).calls ≤ 1 ∧
    ((runManager sampleCollaborators
      { threadCount := 2, blocksLimit := 1, firstBlockTimestamp := 0,
        blockTimestampInterval := 0 }
      (eventLoopEntry 0 sampleTemplate .MINING_IN_PROGRESS)
      [.miningTask (.found staleBlock),
       .eventLoop false (some 400) [some { status := 201, body := some freshParams }],
       .miningTask (.found staleBlock),
       .eventLoop false (some 202) []]).status = .returned ↔
      acceptedSubmits (runManager sampleCollaborators
        { threadCount := 2, blocksLimit := 1, firstBlockTimestamp := 0,
          blockTimestampInterval := 0 }
        (eventLoopEntry 0 sampleTemplate .MINING_IN_PROGRESS)
        [.miningTask (.found staleBlock),
         .eventLoop false (some 400) [some { status := 201, body := some freshParams }],
         .miningTask (.found staleBlock),
         .eventLoop false (some 202) []]).calls = 1) ∧
    (runManager sampleCollaborators
      { threadCount := 2, blocksLimit := 1, firstBlockTimestamp := 0,
        blockTimestampInterval := 0 }
      (eventLoopEntry 0 sampleTemplate .MINING_IN_PROGRESS)
      [.miningTask (.found staleBlock),
       .eventLoop false (some 400) [some { status := 201, body := some freshParams }],
       .miningTask (.found staleBlock),
       .eventLoop false (some 202) []]).status = .returned :=
  ⟨((block_limit sampleCollaborators
      { threadCount := 2, blocksLimit := 1, firstBlockTimestamp := 0,
        blockTimestampInterval := 0 } 0 sampleTemplate .MINING_IN_PROGRESS
      [.miningTask (.found staleBlock),
       .eventLoop false (some 400) [some { status := 201, body := some freshParams }],
       .miningTask (.found staleBlock),
       .eventLoop false (some 202) []] (by norm_num)).2 (by decide)).1,
   ((block_limit sampleCollaborators
      { threadCount := 2, blocksLimit := 1, firstBlockTimestamp := 0,
        blockTimestampInterval := 0 } 0 sampleTemplate .MINING_IN_PROGRESS
      [.miningTask (.found staleBlock),
       .eventLoop false (some 400) [some { status := 201, body := some freshParams }],
       .miningTask (.found staleBlock),
       .eventLoop false (some 202) []] (by norm_num)).2 (by decide)).2.1,
   rfl⟩

/-- C5 (as stated, refuted): the attempt that was mining when the
loop was entered finds `staleBlock`; `BLOCKCHAIN_UPDATED` is drained first, its
`stopMining` finds the miner in `BLOCK_FOUND` and changes nothing, and a new
attempt is started on the fresh template; `BLOCK_MINED` of the first attempt is
drained next and `submitBlock` is called with `staleBlock`. -/
theorem stale_submit :
    (runManager sampleCollaborators sampleConfig
      (eventLoopEntry 0 sampleTemplate .MINING_IN_PROGRESS) (staleSteps.take 4)).minerState
        = .BLOCK_FOUND ∧
    (runManager sampleCollaborators sampleConfig
      (eventLoopEntry 0 sampleTemplate .MINING_IN_PROGRESS) (staleSteps.take 4)).m_events
        = [.BLOCK_MINED] ∧
    (runManager sampleCollaborators sampleConfig
      (eventLoopEntry 0 sampleTemplate .MINING_IN_PROGRESS) staleSteps).calls =
      [Call.stopMining, Call.stopBlockchainMonitoring, Call.requestMiningParameters,
       Call.startBlockchainMonitoring, Call.startMining freshParams,
       Call.stopBlockchainMonitoring, Call.submitBlock staleBlock true,
       Call.requestMiningParameters, Call.startBlockchainMonitoring,
       Call.startMining freshParams] := by
  refine ⟨rfl, rfl, rfl⟩

end MinerManager

namespace Miner
open CryptoNote

theorem winners_append (l1 l2 : List Event) :
    winners (l1 ++ l2) = winners l1 ++ winners l2 := by
  induction l1 with
  | nil => rfl
  | cons e l ih =>
    cases e <;> simp [winners, ih]

theorem hasCatch_append (l : List Event) (e : Event) :
    hasCatch (l ++ [e]) ↔ hasCatch l ∨ e.isCatch = true := by
  unfold hasCatch
  constructor
  · rintro ⟨x, hx, hc⟩
    rcases List.mem_append.1 hx with h | h
    · exact Or.inl ⟨x, h, hc⟩
    · rw [List.mem_singleton] at h
      subst h
      exact Or.inr hc
  · rintro (⟨x, hx, hc⟩ | h)
    · exact ⟨x, List.mem_append_left _ hx, hc⟩
    · exact ⟨e, by simp, h⟩

theorem getElem?_set_cases (l : List Worker) (i j : Nat) (a w : Worker)
    (h : (l.set i a)[j]? = some w) :
    (j = i ∧ w = a ∧ i < l.length) ∨ (j ≠ i ∧ l[j]? = some w) := by
  rw [List.getElem?_set] at h
  by_cases hij : i = j
  · subst hij
    rw [if_pos rfl] at h
    by_cases hl : i < l.length
    · rw [if_pos hl] at h
      exact Or.inl ⟨rfl, (Option.some.inj h).symm, hl⟩
    · rw [if_neg hl] at h
      cases h
  · rw [if_neg hij] at h
    exact Or.inr ⟨fun h' => hij h'.symm, h⟩

theorem getElem?_append_one (l : List Worker) (j : Nat) (a w : Worker)
    (h : (l ++ [a])[j]? = some w) :
    l[j]? = some w ∨ (j = l.length ∧ w = a) := by
  by_cases hj : j < l.length
  · rw [List.getElem?_append_left hj] at h
    exact Or.inl h
  · rw [List.getElem?_append_right (by omega)] at h
    by_cases hz : j - l.length = 0
    · rw [hz] at h
      simp at h
      exact Or.inr ⟨by omega, h.symm⟩
    · obtain ⟨k, hk⟩ := Nat.exists_eq_succ_of_ne_zero hz
      rw [hk] at h
      simp at h

theorem sameButNonce_nonce (b t : BlockTemplate) (n : Nat) (h : sameButNonce b t) :
    sameButNonce { b with nonce := n } t := by
  unfold sameButNonce at h ⊢
  rw [h]

theorem inv_call (ext : Collaborators) (st : MiningState) (blk : BlockTemplate) (hc : Nat)
    (params : BlockMiningParameters) (threadCount seed : Nat) (ht : 1 ≤ threadCount)
    (hst : st ≠ .MINING_IN_PROGRESS) :
    Inv ext (call st blk hc [] params threadCount seed) where
  threads := ht
  workers := by intro j w h; simp [call] at h
  stateLog := by intro h; exact absurd rfl h
  winner := by intro i h; simp [call, winners] at h
  pc := by
    refine ⟨fun _ => ⟨hst, rfl, rfl⟩, ?_, ?_, ?_, ?_, ?_⟩ <;> intros <;> simp [call] at *

end Miner

namespace Miner
open CryptoNote

theorem workerInv_mono {ext : Collaborators} {params : BlockMiningParameters}
    {st st1 : MiningState} {log log1 : List Event} {j : Nat} {w : Worker}
    (h : WorkerInv ext params st log j w)
    (hstore : w.pc = .storeBlock → winners log1 = [j])
    (hst : st ≠ .MINING_IN_PROGRESS → st1 ≠ .MINING_IN_PROGRESS) :
    WorkerInv ext params st1 log1 j w where
  difficulty := h.difficulty
  block := h.block
  qual := h.qual
  store := hstore
  observed := fun x hx hne => hst (h.observed x hx hne)
  fin := fun hf => hst (h.fin hf)

theorem inv_inProgress {ext : Collaborators} {s : System} (h : Inv ext s)
    (hs : s.m_state = .MINING_IN_PROGRESS) :
    s.minePc ≠ .entry ∧ winners s.log = [] ∧ Event.stopCas ∉ s.log ∧ ¬ hasCatch s.log := by
  have hne : s.minePc ≠ .entry := fun he => (h.pc.entry he).1 hs
  exact ⟨hne, (h.stateLog hne).inProgress hs⟩

theorem inv_no_store {ext : Collaborators} {s : System} (h : Inv ext s)
    (hs : s.m_state = .MINING_IN_PROGRESS) (j : Nat) (w : Worker)
    (hw : s.workers[j]? = some w) : w.pc ≠ .storeBlock := by
  intro hp
  have h1 := (h.workers j w hw).store hp
  rw [(inv_inProgress h hs).2.1] at h1
  cases h1

theorem inv_stop (ext : Collaborators) (s : System) (b : Bool) (h : Inv ext s) :
    Inv ext (stop s b) := by
  unfold stop
  split
  · rename_i hc
    obtain ⟨hs, -⟩ := hc
    obtain ⟨hne, hw0, hs0, hc0⟩ := inv_inProgress h hs
    have hwin : winners (s.log ++ [Event.stopCas]) = [] := by
      rw [winners_append, hw0]; rfl
    refine ⟨h.threads, ?_, ?_, ?_, ?_⟩
    · intro j w hw
      refine workerInv_mono (h.workers j w hw) (fun hp => ?_) (fun _ => by simp)
      exact absurd hp (inv_no_store h hs j w hw)
    · intro _
      refine ⟨fun hx => (nomatch hx), fun hx => (nomatch hx), fun _ => ?_⟩
      exact ⟨Or.inl (by simp), by rw [hwin]; simp, fun _ => hwin⟩
    · intro i hi
      change winners (s.log ++ [Event.stopCas]) = [i] at hi
      rw [hwin] at hi
      cases hi
    · refine ⟨fun he => absurd he hne, fun i t he => h.pc.spawning i t he,
        fun he => h.pc.joining he, fun he => absurd hs (h.pc.afterRun he).1,
        fun b he => ?_, fun e he => ?_⟩
      · have := (h.pc.found b he).1
        rw [hs] at this
        cases this
      · have := (h.pc.failed e he).2
        rw [hs] at this
        cases this
  · exact h

end Miner

namespace Miner
open CryptoNote

theorem stateLog_facts {st : MiningState} {log : List Event} (h : StateLog st log) :
    (winners log).length ≤ 1 ∧ (Event.stopCas ∈ log → winners log = []) ∧
    (hasCatch log → st = .MINING_STOPPED) ∧ (Event.stopCas ∈ log → st = .MINING_STOPPED) ∧
    (st = .MINING_STOPPED → Event.stopCas ∈ log ∨ hasCatch log) := by
  cases st with
  | MINING_IN_PROGRESS =>
    obtain ⟨h1, h2, h3⟩ := h.inProgress rfl
    exact ⟨by rw [h1]; simp, fun hx => absurd hx h2, fun hx => absurd hx h3,
      fun hx => absurd hx h2, fun hx => (nomatch hx)⟩
  | BLOCK_FOUND =>
    obtain ⟨⟨i, h1⟩, h2, h3⟩ := h.found rfl
    exact ⟨by rw [h1]; simp, fun hx => absurd hx h2, fun hx => absurd hx h3,
      fun hx => absurd hx h2, fun hx => (nomatch hx)⟩
  | MINING_STOPPED =>
    obtain ⟨h1, h2, h3⟩ := h.stopped rfl
    exact ⟨h2, h3, fun _ => rfl, fun _ => rfl, fun _ => h1⟩

theorem winners_append_other (log : List Event) (e : Event) (h : winners [e] = []) :
    winners (log ++ [e]) = winners log := by
  rw [winners_append, h, List.append_nil]

theorem inv_mine (ext : Collaborators) (s : System) (b : Bool) (h : Inv ext s) :
    Inv ext (mine s b) := by
  have ht := h.threads
  cases hpc : s.minePc with
  | entry =>
    obtain ⟨e1, e2, e3⟩ := h.pc.entry hpc
    have hm : mine s b = { s with
        m_state := .MINING_IN_PROGRESS
        m_miningStopped := false
        minePc := .spawning 0 { s.params.blockTemplate with nonce := s.seed } } := by
      unfold mine
      rw [hpc]
      simp only
      rw [if_neg (by omega), if_neg e1]
    rw [hm]
    refine ⟨ht, ?_, ?_, ?_, ?_⟩
    · intro j w hw
      change s.workers[j]? = some w at hw
      rw [e2] at hw
      simp at hw
    · intro _
      change StateLog .MINING_IN_PROGRESS s.log
      rw [e3]
      refine ⟨fun _ => ⟨rfl, by simp, ?_⟩, fun hx => (nomatch hx), fun hx => (nomatch hx)⟩
      rintro ⟨e, he, -⟩
      cases he
    · intro i hi
      change winners s.log = [i] at hi
      rw [e3] at hi
      cases hi
    · refine ⟨fun he => (nomatch he), fun i t he => ?_, fun he => (nomatch he),
        fun he => (nomatch he), fun b he => (nomatch he), fun e he => (nomatch he)⟩
      change MinePc.spawning 0 _ = MinePc.spawning i t at he
      cases he
      exact ⟨rfl, by rw [e2]; rfl⟩
  | spawning i t =>
    obtain ⟨p1, p2⟩ := h.pc.spawning i t hpc
    have hne : s.minePc ≠ .entry := by rw [hpc]; simp
    have hsl := h.stateLog hne
    by_cases hi : i < s.threadCount
    · cases b with
      | true =>
        have hm : mine s true = { s with
            m_state := .MINING_STOPPED
            m_miningStopped := true
            minePc := .afterRun
            log := s.log ++ [Event.runWorkersCatch] } := by
          unfold mine
          rw [hpc]
          simp only
          rw [if_pos hi]
          rfl
        rw [hm]
        have hwin : winners (s.log ++ [Event.runWorkersCatch]) = winners s.log :=
          winners_append_other _ _ rfl
        obtain ⟨f1, f2, -, -, -⟩ := stateLog_facts hsl
        have hcatch : hasCatch (s.log ++ [Event.runWorkersCatch]) :=
          (hasCatch_append _ _).2 (Or.inr rfl)
        refine ⟨ht, ?_, ?_, ?_, ?_⟩
        · intro j w hw
          refine workerInv_mono (h.workers j w hw) (fun hp => ?_) (fun _ => by simp)
          rw [hwin]
          exact (h.workers j w hw).store hp
        · intro _
          refine ⟨fun hx => (nomatch hx), fun hx => (nomatch hx), fun _ => ?_⟩
          refine ⟨Or.inr hcatch, by rw [hwin]; exact f1, fun hx => ?_⟩
          rw [hwin]
          apply f2
          rcases List.mem_append.1 hx with hx | hx
          · exact hx
          · simp at hx
        · intro k hk
          change winners (s.log ++ [Event.runWorkersCatch]) = [k] at hk
          rw [hwin] at hk
          rcases h.winner k hk with hw | ⟨b, g1, g2, g3, g4⟩
          · exact Or.inl hw
          · exact Or.inr ⟨b, List.mem_append_left _ g1, g2, g3, g4⟩
        · refine ⟨fun he => (nomatch he), fun i t he => (nomatch he), fun he => (nomatch he),
            fun _ => ⟨by simp, Or.inr hcatch⟩, fun b he => (nomatch he),
            fun e he => (nomatch he)⟩
      | false =>
        have hm : mine s false = { s with
            workers := s.workers ++
              [{ pc := .loopTest, block := t, difficulty := s.params.difficulty,
                 nonceStep := nonceStepOf s.threadCount }]
            minePc := .spawning (i + 1) { t with nonce := add32 t.nonce 1 } } := by
          unfold mine
          rw [hpc]
          simp only
          rw [if_pos hi]
          rfl
        rw [hm]
        refine ⟨ht, ?_, ?_, ?_, ?_⟩
        · intro j w hw
          rcases getElem?_append_one _ _ _ _ hw with hw | ⟨-, rfl⟩
          · exact h.workers j w hw
          · exact ⟨rfl, p1, fun hx => (nomatch hx), fun hx => (nomatch hx),
              fun x hx => (nomatch hx), fun hx => (nomatch hx)⟩
        · intro _
          exact hsl
        · intro k hk
          rcases h.winner k hk with ⟨w, hw, hp⟩ | hw
          · refine Or.inl ⟨w, ?_, hp⟩
            have hlt : k < s.workers.length := by
              by_contra hge
              rw [List.getElem?_eq_none (by omega)] at hw
              cases hw
            change (s.workers ++ _)[k]? = some w
            rw [List.getElem?_append_left hlt]
            exact hw
          · exact Or.inr hw
        · refine ⟨fun he => (nomatch he), fun i1 t1 he => ?_, fun he => (nomatch he),
            fun he => (nomatch he), fun b he => (nomatch he), fun e he => (nomatch he)⟩
          change MinePc.spawning (i + 1) _ = MinePc.spawning i1 t1 at he
          cases he
          refine ⟨sameButNonce_nonce _ _ _ p1, ?_⟩
          change (s.workers ++ _).length = i + 1
          rw [List.length_append, p2]
          rfl
    · have hm : mine s b = { s with minePc := .joining } := by
        unfold mine
        rw [hpc]
        simp only
        rw [if_neg hi]
      rw [hm]
      refine ⟨ht, h.workers, fun _ => hsl, h.winner, ?_⟩
      refine ⟨fun he => (nomatch he), fun i t he => (nomatch he), fun _ => ?_,
        fun he => (nomatch he), fun b he => (nomatch he), fun e he => (nomatch he)⟩
      intro hnil
      change s.workers = [] at hnil
      rw [hnil] at p2
      simp at p2
      omega
  | joining =>
    have hne : s.minePc ≠ .entry := by rw [hpc]; simp
    have hsl := h.stateLog hne
    have hnil := h.pc.joining hpc
    by_cases hall : s.workers.all (fun w => decide (w.pc = .finished)) = true
    · have hm : mine s b = { s with
          workers := []
          m_miningStopped := true
          minePc := .afterRun } := by
        unfold mine
        rw [hpc]
        simp only
        rw [if_pos hall]
      rw [hm]
      have hfin : ∀ (j : Nat) (w : Worker), s.workers[j]? = some w → w.pc = .finished := by
        intro j w hw
        rw [List.all_eq_true] at hall
        have := hall w (List.getElem?_mem hw)
        simpa using this
      refine ⟨ht, ?_, fun _ => hsl, ?_, ?_⟩
      · intro j w hw
        simp at hw
      · intro k hk
        rcases h.winner k hk with ⟨w, hw, hp⟩ | hw
        · rw [hfin k w hw] at hp
          cases hp
        · exact Or.inr hw
      · refine ⟨fun he => (nomatch he), fun i t he => (nomatch he), fun he => (nomatch he),
          fun _ => ⟨?_, Or.inl ?_⟩, fun b he => (nomatch he), fun e he => (nomatch he)⟩
        · obtain ⟨w, l, hl⟩ := List.exists_cons_of_ne_nil hnil
          have hw0 : s.workers[0]? = some w := by rw [hl]; simp
          exact (h.workers 0 w hw0).fin (hfin 0 w hw0)
        · intro j w hw
          simp at hw
    · have hm : mine s b = s := by
        unfold mine
        rw [hpc]
        simp only
        rw [if_neg hall]
      rw [hm]
      exact h
  | afterRun =>
    have hne : s.minePc ≠ .entry := by rw [hpc]; simp
    have hsl := h.stateLog hne
    obtain ⟨a1, a2⟩ := h.pc.afterRun hpc
    by_cases hs : s.m_state = .MINING_STOPPED
    · have hm : mine s b = { s with minePc := .returned (.failed .interrupted) } := by
        unfold mine
        rw [hpc]
        simp only
        rw [if_pos hs]
      rw [hm]
      refine ⟨ht, h.workers, fun _ => hsl, h.winner, ?_⟩
      refine ⟨fun he => (nomatch he), fun i t he => (nomatch he), fun he => (nomatch he),
        fun he => (nomatch he), fun b he => (nomatch he), fun e he => ?_⟩
      change MinePc.returned (.failed .interrupted) = MinePc.returned (.failed e) at he
      cases he
      exact ⟨rfl, hs⟩
    · have hm : mine s b = { s with minePc := .returned (.found s.m_block) } := by
        unfold mine
        rw [hpc]
        simp only
        rw [if_neg hs]
      rw [hm]
      have hf : s.m_state = .BLOCK_FOUND := by
        cases hx : s.m_state with
        | MINING_STOPPED => exact absurd hx hs
        | MINING_IN_PROGRESS => exact absurd hx a1
        | BLOCK_FOUND => rfl
      refine ⟨ht, h.workers, fun _ => hsl, h.winner, ?_⟩
      refine ⟨fun he => (nomatch he), fun i t he => (nomatch he), fun he => (nomatch he),
        fun he => (nomatch he), fun b he => ?_, fun e he => (nomatch he)⟩
      change MinePc.returned (.found s.m_block) = MinePc.returned (.found b) at he
      cases he
      refine ⟨hf, rfl, ?_⟩
      rcases a2 with a2 | a2
      · exact a2
      · exact absurd ((stateLog_facts hsl).2.2.1 a2) hs
  | returned r =>
    have hm : mine s b = s := by
      unfold mine
      rw [hpc]
    rw [hm]
    exact h

end Miner

namespace Miner
open CryptoNote

theorem getElem?_set_self_of (l : List Worker) (i : Nat) (w a : Worker)
    (h : l[i]? = some w) : (l.set i a)[i]? = some a := by
  have hlt : i < l.length := by
    by_contra hge
    rw [List.getElem?_eq_none (by omega)] at h
    cases h
  rw [List.getElem?_set]
  simp [hlt]

theorem getElem?_set_other (l : List Worker) (i k : Nat) (a : Worker) (h : k ≠ i) :
    (l.set i a)[k]? = l[k]? := by
  rw [List.getElem?_set]
  rw [if_neg (fun h' => h h'.symm)]

theorem set_ne_nil (l : List Worker) (i : Nat) (a : Worker) (h : l ≠ []) :
    l.set i a ≠ [] := by
  intro hs
  have := congrArg List.length hs
  rw [List.length_set] at this
  exact h (List.length_eq_zero.1 this)

theorem not_allFinished_set (l : List Worker) (i : Nat) (w a : Worker)
    (h : l[i]? = some w) (ha : a.pc ≠ .finished) : ¬ allFinished (l.set i a) := by
  intro hall
  exact ha (hall i a (getElem?_set_self_of l i w a h))

theorem stateLog_append_neutral {st : MiningState} {log : List Event} (e : Event)
    (h : StateLog st log) (h1 : winners [e] = []) (h2 : e ≠ Event.stopCas)
    (h3 : e.isCatch = false) : StateLog st (log ++ [e]) := by
  have hw : winners (log ++ [e]) = winners log := winners_append_other _ _ h1
  have hs : Event.stopCas ∈ log ++ [e] ↔ Event.stopCas ∈ log := by
    simp [List.mem_append, List.mem_singleton]
    exact fun hx => absurd hx.symm h2
  have hc : hasCatch (log ++ [e]) ↔ hasCatch log := by
    rw [hasCatch_append]
    simp [h3]
  refine ⟨fun hx => ?_, fun hx => ?_, fun hx => ?_⟩
  · rw [hw, hs, hc]; exact h.inProgress hx
  · rw [hw, hs, hc]; exact h.found hx
  · rw [hw, hs, hc]; exact h.stopped hx

/-- A step of worker `i` that changes only its own record (and the hash
counter) keeps the invariant. -/
theorem inv_local (ext : Collaborators) (s : System) (i : Nat) (w w1 : Worker) (hc1 : Nat)
    (h : Inv ext s) (hw : s.workers[i]? = some w) (hns : w.pc ≠ .storeBlock)
    (hnf : w.pc ≠ .finished)
    (hw1 : WorkerInv ext s.params s.m_state s.log i w1) :
    Inv ext { s with m_hash_count := hc1, workers := s.workers.set i w1 } := by
  have hnil : s.workers ≠ [] := by
    intro hn
    rw [hn] at hw
    simp at hw
  have hne : s.minePc ≠ .entry := fun he => hnil (h.pc.entry he).2.1
  have hnotall : ¬ allFinished s.workers := fun hall => hnf (hall i w hw)
  refine ⟨h.threads, ?_, fun _ => h.stateLog hne, ?_, ?_⟩
  · intro j v hv
    rcases getElem?_set_cases _ _ _ _ _ hv with ⟨rfl, rfl, -⟩ | ⟨-, hv⟩
    · exact hw1
    · exact h.workers j v hv
  · intro k hk
    rcases h.winner k hk with ⟨v, hv, hp⟩ | hx
    · by_cases hki : k = i
      · subst hki
        rw [hw] at hv
        cases hv
        exact absurd hp hns
      · exact Or.inl ⟨v, by
          change (s.workers.set i w1)[k]? = some v
          rw [getElem?_set_other _ _ _ _ hki]; exact hv, hp⟩
    · exact Or.inr hx
  · refine ⟨fun he => absurd he hne, fun j t he => ?_, fun he => ?_, fun he => ?_,
      fun b he => ?_, fun e he => h.pc.failed e he⟩
    · obtain ⟨p1, p2⟩ := h.pc.spawning j t he
      exact ⟨p1, by change (s.workers.set i w1).length = j; rw [List.length_set]; exact p2⟩
    · exact set_ne_nil _ _ _ hnil
    · obtain ⟨a1, a2⟩ := h.pc.afterRun he
      rcases a2 with a2 | a2
      · exact absurd a2 hnotall
      · exact ⟨a1, Or.inr a2⟩
    · exact absurd (h.pc.found b he).2.2 hnotall

end Miner

namespace Miner
open CryptoNote

theorem inv_worker_catch (ext : Collaborators) (s : System) (i : Nat) (w : Worker)
    (h : Inv ext s) (hw : s.workers[i]? = some w) (hpc : w.pc = .hashing) :
    Inv ext { s with
      m_state := .MINING_STOPPED
      workers := s.workers.set i { w with pc := .finished }
      log := s.log ++ [Event.workerCatch i] } := by
  have hwi := h.workers i w hw
  have hnil : s.workers ≠ [] := by
    intro hn
    rw [hn] at hw
    simp at hw
  have hne : s.minePc ≠ .entry := fun he => hnil (h.pc.entry he).2.1
  have hsl := h.stateLog hne
  have hnotall : ¬ allFinished s.workers := fun hall => by
    have := hall i w hw
    rw [hpc] at this
    cases this
  have hwin : winners (s.log ++ [Event.workerCatch i]) = winners s.log :=
    winners_append_other _ _ rfl
  have hcatch : hasCatch (s.log ++ [Event.workerCatch i]) :=
    (hasCatch_append _ _).2 (Or.inr rfl)
  obtain ⟨f1, f2, -, -, -⟩ := stateLog_facts hsl
  refine ⟨h.threads, ?_, ?_, ?_, ?_⟩
  · intro j v hv
    rcases getElem?_set_cases _ _ _ _ _ hv with ⟨rfl, rfl, -⟩ | ⟨-, hv⟩
    · exact ⟨hwi.difficulty, hwi.block, fun hx => (by cases hx), fun hx => (by cases hx),
        fun x hx => (by cases hx), fun _ => by simp⟩
    · refine workerInv_mono (h.workers j v hv) (fun hp => ?_) (fun _ => by simp)
      rw [hwin]
      exact (h.workers j v hv).store hp
  · intro _
    refine ⟨fun hx => (nomatch hx), fun hx => (nomatch hx), fun _ => ?_⟩
    refine ⟨Or.inr hcatch, by rw [hwin]; exact f1, fun hx => ?_⟩
    rw [hwin]
    apply f2
    rcases List.mem_append.1 hx with hx | hx
    · exact hx
    · simp at hx
  · intro k hk
    change winners (s.log ++ [Event.workerCatch i]) = [k] at hk
    rw [hwin] at hk
    rcases h.winner k hk with ⟨v, hv, hp⟩ | ⟨b, g1, g2, g3, g4⟩
    · by_cases hki : k = i
      · subst hki
        rw [hw] at hv
        cases hv
        rw [hpc] at hp
        cases hp
      · exact Or.inl ⟨v, by
          change (s.workers.set i _)[k]? = some v
          rw [getElem?_set_other _ _ _ _ hki]; exact hv, hp⟩
    · exact Or.inr ⟨b, List.mem_append_left _ g1, g2, g3, g4⟩
  · refine ⟨fun he => absurd he hne, fun j t he => ?_, fun he => ?_, fun he => ?_,
      fun b he => ?_, fun e he => ?_⟩
    · obtain ⟨p1, p2⟩ := h.pc.spawning j t he
      exact ⟨p1, by change (s.workers.set i _).length = j; rw [List.length_set]; exact p2⟩
    · exact set_ne_nil _ _ _ hnil
    · exact ⟨by simp, Or.inr hcatch⟩
    · exact absurd (h.pc.found b he).2.2 hnotall
    · exact ⟨(h.pc.failed e he).1, rfl⟩

theorem inv_worker_cas (ext : Collaborators) (s : System) (i : Nat) (w : Worker)
    (h : Inv ext s) (hw : s.workers[i]? = some w)
    (hpc : w.pc = .sbfSwitch .MINING_IN_PROGRESS) (hs : s.m_state = .MINING_IN_PROGRESS) :
    Inv ext { s with
      m_state := .BLOCK_FOUND
      workers := s.workers.set i { w with pc := .storeBlock }
      log := s.log ++ [Event.casFound i] } := by
  have hwi := h.workers i w hw
  have hnil : s.workers ≠ [] := by
    intro hn
    rw [hn] at hw
    simp at hw
  obtain ⟨hne, hw0, hs0, hc0⟩ := inv_inProgress h hs
  have hwin : winners (s.log ++ [Event.casFound i]) = [i] := by
    rw [winners_append, hw0]; rfl
  refine ⟨h.threads, ?_, ?_, ?_, ?_⟩
  · intro j v hv
    rcases getElem?_set_cases _ _ _ _ _ hv with ⟨rfl, rfl, -⟩ | ⟨-, hv⟩
    · refine ⟨hwi.difficulty, hwi.block, fun _ => hwi.qual (by rw [hpc]; rfl),
        fun _ => hwin, fun x hx => (by cases hx), fun hx => (by cases hx)⟩
    · refine workerInv_mono (h.workers j v hv) (fun hp => ?_) (fun _ => by simp)
      exact absurd hp (inv_no_store h hs j v hv)
  · intro _
    refine ⟨fun hx => (nomatch hx), fun _ => ⟨⟨i, hwin⟩, ?_, ?_⟩, fun hx => (nomatch hx)⟩
    · intro hx
      rcases List.mem_append.1 hx with hx | hx
      · exact hs0 hx
      · simp at hx
    · intro hx
      rcases (hasCatch_append _ _).1 hx with hx | hx
      · exact hc0 hx
      · cases hx
  · intro k hk
    change winners (s.log ++ [Event.casFound i]) = [k] at hk
    rw [hwin] at hk
    cases hk
    exact Or.inl ⟨_, getElem?_set_self_of _ _ _ _ hw, rfl⟩
  · refine ⟨fun he => absurd he hne, fun j t he => ?_, fun he => ?_, fun he => ?_,
      fun b he => ?_, fun e he => ?_⟩
    · obtain ⟨p1, p2⟩ := h.pc.spawning j t he
      exact ⟨p1, by change (s.workers.set i _).length = j; rw [List.length_set]; exact p2⟩
    · exact set_ne_nil _ _ _ hnil
    · exact absurd hs (h.pc.afterRun he).1
    · have := (h.pc.found b he).1
      rw [hs] at this
      cases this
    · have := (h.pc.failed e he).2
      rw [hs] at this
      cases this

theorem inv_worker_store (ext : Collaborators) (s : System) (i : Nat) (w : Worker)
    (h : Inv ext s) (hw : s.workers[i]? = some w) (hpc : w.pc = .storeBlock) :
    Inv ext { s with
      m_block := w.block
      workers := s.workers.set i { w with pc := .finished }
      log := s.log ++ [Event.stored i w.block] } := by
  have hwi := h.workers i w hw
  have hnil : s.workers ≠ [] := by
    intro hn
    rw [hn] at hw
    simp at hw
  have hne : s.minePc ≠ .entry := fun he => hnil (h.pc.entry he).2.1
  have hsl := h.stateLog hne
  have hW : winners s.log = [i] := hwi.store hpc
  have hnip : s.m_state ≠ .MINING_IN_PROGRESS := by
    intro hs
    rw [(hsl.inProgress hs).1] at hW
    cases hW
  have hnotall : ¬ allFinished s.workers := fun hall => by
    have := hall i w hw
    rw [hpc] at this
    cases this
  have hwin : winners (s.log ++ [Event.stored i w.block]) = winners s.log :=
    winners_append_other _ _ rfl
  refine ⟨h.threads, ?_, ?_, ?_, ?_⟩
  · intro j v hv
    rcases getElem?_set_cases _ _ _ _ _ hv with ⟨rfl, rfl, -⟩ | ⟨-, hv⟩
    · exact ⟨hwi.difficulty, hwi.block, fun hx => (by cases hx), fun hx => (by cases hx),
        fun x hx => (by cases hx), fun _ => hnip⟩
    · refine workerInv_mono (h.workers j v hv) (fun hp => ?_) (fun hx => hx)
      rw [hwin]
      exact (h.workers j v hv).store hp
  · intro _
    exact stateLog_append_neutral _ hsl rfl (by simp) rfl
  · intro k hk
    change winners (s.log ++ [Event.stored i w.block]) = [k] at hk
    rw [hwin, hW] at hk
    cases hk
    refine Or.inr ⟨w.block, by simp, rfl, ?_, hwi.block⟩
    have := hwi.qual (by rw [hpc]; rfl)
    rw [hwi.difficulty] at this
    exact this
  · refine ⟨fun he => absurd he hne, fun j t he => ?_, fun he => ?_, fun he => ?_,
      fun b he => ?_, fun e he => h.pc.failed e he⟩
    · obtain ⟨p1, p2⟩ := h.pc.spawning j t he
      exact ⟨p1, by change (s.workers.set i _).length = j; rw [List.length_set]; exact p2⟩
    · exact set_ne_nil _ _ _ hnil
    · obtain ⟨a1, a2⟩ := h.pc.afterRun he
      rcases a2 with a2 | a2
      · exact absurd a2 hnotall
      · exact ⟨a1, Or.inr ((hasCatch_append _ _).2 (Or.inl a2))⟩
    · exact absurd (h.pc.found b he).2.2 hnotall

end Miner

namespace Miner
open CryptoNote

theorem inv_worker (ext : Collaborators) (s : System) (i : Nat) (b : Bool) (h : Inv ext s) :
    Inv ext (workerFunc ext s i b) := by
  cases hw : s.workers[i]? with
  | none =>
    have hm : workerFunc ext s i b = s := by simp [workerFunc, hw]
    rw [hm]
    exact h
  | some w =>
    have hwi := h.workers i w hw
    cases hpc : w.pc with
    | loopTest =>
      by_cases hs : s.m_state = .MINING_IN_PROGRESS
      · have hm : workerFunc ext s i b = { s with
            m_hash_count := s.m_hash_count
            workers := s.workers.set i { w with pc := .hashing } } := by
          simp [workerFunc, hw, hpc, hs]
        rw [hm]
        exact inv_local ext s i w _ _ h hw (by rw [hpc]; simp) (by rw [hpc]; simp)
          ⟨hwi.difficulty, hwi.block, fun hx => (by cases hx), fun hx => (by cases hx),
            fun x hx => (by cases hx), fun hx => (by cases hx)⟩
      · have hm : workerFunc ext s i b = { s with
            m_hash_count := s.m_hash_count
            workers := s.workers.set i { w with pc := .finished } } := by
          simp [workerFunc, hw, hpc, hs]
        rw [hm]
        exact inv_local ext s i w _ _ h hw (by rw [hpc]; simp) (by rw [hpc]; simp)
          ⟨hwi.difficulty, hwi.block, fun hx => (by cases hx), fun hx => (by cases hx),
            fun x hx => (by cases hx), fun _ => hs⟩
    | hashing =>
      cases hh : ext.getBlockLongHash w.block with
      | none =>
        have hm : workerFunc ext s i b = { s with
            m_state := .MINING_STOPPED
            workers := s.workers.set i { w with pc := .finished }
            log := s.log ++ [Event.workerCatch i] } := by
          simp [workerFunc, hw, hpc, hh]
        rw [hm]
        exact inv_worker_catch ext s i w h hw hpc
      | some hash =>
        by_cases hq : ext.check_hash hash w.difficulty = true
        · have hm : workerFunc ext s i b = { s with
              m_hash_count := s.m_hash_count
              workers := s.workers.set i { w with pc := .sbfLoad } } := by
            simp [workerFunc, hw, hpc, hh, hq]
          rw [hm]
          refine inv_local ext s i w _ _ h hw (by rw [hpc]; simp) (by rw [hpc]; simp)
            ⟨hwi.difficulty, hwi.block, fun _ => ?_, fun hx => (by cases hx),
              fun x hx => (by cases hx), fun hx => (by cases hx)⟩
          show qualifies ext w.block w.difficulty = true
          unfold qualifies
          rw [hh]
          exact hq
        · have hm : workerFunc ext s i b = { s with
              m_hash_count := add64 s.m_hash_count 1
              workers := s.workers.set i
                { w with pc := .loopTest, block := advanceNonce w.block w.nonceStep } } := by
            simp [workerFunc, hw, hpc, hh, hq]
          rw [hm]
          exact inv_local ext s i w _ _ h hw (by rw [hpc]; simp) (by rw [hpc]; simp)
            ⟨hwi.difficulty, sameButNonce_nonce _ _ _ hwi.block, fun hx => (by cases hx),
              fun hx => (by cases hx), fun x hx => (by cases hx), fun hx => (by cases hx)⟩
    | sbfLoad =>
      have hm : workerFunc ext s i b = { s with
          m_hash_count := s.m_hash_count
          workers := s.workers.set i { w with pc := .sbfSwitch s.m_state } } := by
        simp [workerFunc, hw, hpc]
      rw [hm]
      refine inv_local ext s i w _ _ h hw (by rw [hpc]; simp) (by rw [hpc]; simp)
        ⟨hwi.difficulty, hwi.block, fun _ => hwi.qual (by rw [hpc]; rfl),
          fun hx => (by cases hx), fun x hx hne => ?_, fun hx => (by cases hx)⟩
      cases hx
      exact hne
    | sbfSwitch st =>
      cases st with
      | MINING_STOPPED =>
        have hm : workerFunc ext s i b = { s with
            m_hash_count := s.m_hash_count
            workers := s.workers.set i { w with pc := .finished } } := by
          simp [workerFunc, hw, hpc]
        rw [hm]
        exact inv_local ext s i w _ _ h hw (by rw [hpc]; simp) (by rw [hpc]; simp)
          ⟨hwi.difficulty, hwi.block, fun hx => (by cases hx), fun hx => (by cases hx),
            fun x hx => (by cases hx), fun _ => hwi.observed _ hpc (by simp)⟩
      | BLOCK_FOUND =>
        have hm : workerFunc ext s i b = { s with
            m_hash_count := s.m_hash_count
            workers := s.workers.set i { w with pc := .finished } } := by
          simp [workerFunc, hw, hpc]
        rw [hm]
        exact inv_local ext s i w _ _ h hw (by rw [hpc]; simp) (by rw [hpc]; simp)
          ⟨hwi.difficulty, hwi.block, fun hx => (by cases hx), fun hx => (by cases hx),
            fun x hx => (by cases hx), fun _ => hwi.observed _ hpc (by simp)⟩
      | MINING_IN_PROGRESS =>
        by_cases hc : s.m_state = .MINING_IN_PROGRESS ∧ b = false
        · have hm : workerFunc ext s i b = { s with
              m_state := .BLOCK_FOUND
              workers := s.workers.set i { w with pc := .storeBlock }
              log := s.log ++ [Event.casFound i] } := by
            simp [workerFunc, hw, hpc, hc.1, hc.2]
          rw [hm]
          exact inv_worker_cas ext s i w h hw hpc hc.1
        · have hm : workerFunc ext s i b = { s with
              m_hash_count := s.m_hash_count
              workers := s.workers.set i { w with pc := .sbfSwitch s.m_state } } := by
            simp only [workerFunc, hw, hpc, hc, if_false]
          rw [hm]
          refine inv_local ext s i w _ _ h hw (by rw [hpc]; simp) (by rw [hpc]; simp)
            ⟨hwi.difficulty, hwi.block, fun _ => hwi.qual (by rw [hpc]; rfl),
              fun hx => (by cases hx), fun x hx hne => ?_, fun hx => (by cases hx)⟩
          cases hx
          exact hne
    | storeBlock =>
      have hm : workerFunc ext s i b = { s with
          m_block := w.block
          workers := s.workers.set i { w with pc := .finished }
          log := s.log ++ [Event.stored i w.block] } := by
        simp [workerFunc, hw, hpc]
      rw [hm]
      exact inv_worker_store ext s i w h hw hpc
    | finished =>
      have hm : workerFunc ext s i b = s := by simp [workerFunc, hw, hpc]
      rw [hm]
      exact h

theorem inv_step (ext : Collaborators) (s : System) (a : Action) (h : Inv ext s) :
    Inv ext (step ext s a) := by
  cases a with
  | mine b => exact inv_mine ext s b h
  | worker i b => exact inv_worker ext s i b h
  | stop b => exact inv_stop ext s b h

theorem inv_run (ext : Collaborators) (schedule : List Action) (s : System)
    (h : Inv ext s) : Inv ext (run ext s schedule) := by
  induction schedule generalizing s with
  | nil => exact h
  | cons a l ih => exact ih _ (inv_step ext s a h)

theorem params_step (ext : Collaborators) (s : System) (a : Action) :
    (step ext s a).params = s.params := by
  cases a with
  | mine b =>
    simp only [step, mine]
    split
    · split
      · rfl
      · split <;> rfl
    · split
      · split <;> rfl
      · rfl
    · split <;> rfl
    · split <;> rfl
    · rfl
  | worker i b =>
    simp only [step, workerFunc]
    split
    · rfl
    · split
      · split <;> rfl
      · split
        · rfl
        · split <;> rfl
      · rfl
      · rfl
      · rfl
      · split <;> rfl
      · rfl
      · rfl
  | stop b =>
    simp only [step, stop]
    split <;> rfl

theorem params_run (ext : Collaborators) (schedule : List Action) (s : System) :
    (run ext s schedule).params = s.params := by
  induction schedule generalizing s with
  | nil => rfl
  | cons a l ih => rw [run_cons, ih, params_step]

end Miner

namespace Miner
open CryptoNote

theorem returned_cases {ext : Collaborators} {s : System} (h : Inv ext s) (r : MineResult)
    (hret : s.minePc = .returned r) :
    (∃ b i, r = .found b ∧ s.m_state = .BLOCK_FOUND ∧ s.m_block = b ∧
      winners s.log = [i] ∧ Event.stored i b ∈ s.log ∧ Event.stopCas ∉ s.log ∧
      ¬ hasCatch s.log ∧ qualifies ext b s.params.difficulty = true ∧
      sameButNonce b s.params.blockTemplate) ∨
    (r = .failed .interrupted ∧ s.m_state = .MINING_STOPPED ∧
      (Event.stopCas ∈ s.log ∨ hasCatch s.log) ∧
      (Event.stopCas ∈ s.log → winners s.log = [])) := by
  have hne : s.minePc ≠ .entry := by rw [hret]; simp
  have hsl := h.stateLog hne
  cases r with
  | found b =>
    left
    obtain ⟨p1, p2, p3⟩ := h.pc.found b hret
    obtain ⟨⟨i, hi⟩, q2, q3⟩ := hsl.found p1
    rcases h.winner i hi with ⟨w, hw, hp⟩ | ⟨b1, g1, g2, g3, g4⟩
    · rw [p3 i w hw] at hp
      cases hp
    · rw [p2] at g2
      subst g2
      exact ⟨b, i, rfl, p1, p2, hi, g1, q2, q3, g3, g4⟩
  | failed e =>
    right
    obtain ⟨p1, p2⟩ := h.pc.failed e hret
    obtain ⟨q1, -, q3⟩ := hsl.stopped p2
    subst p1
    exact ⟨rfl, p2, q1, q3⟩

/-- Exclusive winner on a miner with no worker left on record: when a call of
`mine` made on a miner that is not mining and holds no worker of an earlier
call returns a block `b`, under every schedule of workers, caller and `stop()`
calls and every hasher: exactly one successful compare-and-swap to
`BLOCK_FOUND` is on record,
made by one worker `i`; that worker stored `b`; the state is `BLOCK_FOUND`;
`m_block` is `b`; `b` passes `check_hash` at the call's difficulty; and `b` is
the call's template with only the nonce changed. -/
theorem exclusive_winner (ext : Collaborators) (st : MiningState) (blk : BlockTemplate)
    (hc : Nat) (params : BlockMiningParameters) (threadCount seed : Nat)
    (schedule : List Action) (b : BlockTemplate)
    (hst : st ≠ .MINING_IN_PROGRESS)
    (hret : (run ext (call st blk hc [] params threadCount seed) schedule).minePc =
      .returned (.found b)) :
    ∃ i, winners (run ext (call st blk hc [] params threadCount seed) schedule).log = [i] ∧
      Event.stored i b ∈ (run ext (call st blk hc [] params threadCount seed) schedule).log ∧
      (run ext (call st blk hc [] params threadCount seed) schedule).m_state = .BLOCK_FOUND ∧
      (run ext (call st blk hc [] params threadCount seed) schedule).m_block = b ∧
      qualifies ext b params.difficulty = true ∧
      b = { params.blockTemplate with nonce := b.nonce } := by
  have ht : 1 ≤ threadCount := by
    by_contra hz
    have hz0 : threadCount = 0 := by omega
    subst hz0
    have h0 : ZeroCall blk hc (call st blk hc [] params 0 seed) :=
      ⟨rfl, rfl, rfl, rfl, Or.inl rfl, fun e he => by cases he⟩
    obtain ⟨⟨-, -, -, -, h5, -⟩, -, -⟩ := zeroCall_run ext blk hc schedule _ h0
    rw [hret] at h5
    rcases h5 with h5 | h5 <;> cases h5
  have hinv := inv_run ext schedule _ (inv_call ext st blk hc params threadCount seed ht hst)
  have hp : (run ext (call st blk hc [] params threadCount seed) schedule).params = params :=
    params_run ext schedule _
  rcases returned_cases hinv _ hret with ⟨b1, i, e1, e2, e3, e4, e5, -, -, e8, e9⟩ | ⟨e1, -⟩
  · cases e1
    rw [hp] at e8 e9
    exact ⟨i, e4, e5, e2, e3, e8, e9⟩
  · cases e1

/-- The exclusive winner of `winSchedule`: worker 0, with nonce `10`. -/
theorem exclusive_winner_witness :
    ∃ i, winners (run flakyCollaborators sampleCall winSchedule).log = [i] ∧
      Event.stored i { sampleBlock with nonce := 10 } ∈
        (run flakyCollaborators sampleCall winSchedule).log ∧
      (run flakyCollaborators sampleCall winSchedule).m_state = .BLOCK_FOUND ∧
      (run flakyCollaborators sampleCall winSchedule).m_block =
        { sampleBlock with nonce := 10 } ∧
      qualifies flakyCollaborators { sampleBlock with nonce := 10 } 1 = true ∧
      ({ sampleBlock with nonce := 10 } : BlockTemplate) =
        { sampleBlock with nonce := 10 } :=
  exclusive_winner flakyCollaborators .MINING_STOPPED sampleBlock 0
    { blockTemplate := sampleBlock, difficulty := 1 } 2 10 winSchedule
    { sampleBlock with nonce := 10 } (by decide) rfl

/-- C1 (as stated, refuted): no `stop()` is ever called, the hash of worker 1
raises while the state is `MINING_IN_PROGRESS`, the handler of `workerFunc`
stores `MINING_STOPPED`, and `mine` ends with `InterruptedException`. -/
theorem mine_outcome_counterexample :
    (∀ b, Action.stop b ∉ catchSchedule) ∧
    Event.stopCas ∉ (run flakyCollaborators sampleCall catchSchedule).log ∧
    winners (run flakyCollaborators sampleCall catchSchedule).log = [] ∧
    (run flakyCollaborators sampleCall catchSchedule).minePc =
      .returned (.failed .interrupted) := by
  refine ⟨by decide, by decide, rfl, rfl⟩

/-- C1 (amended): a call of `mine` with `threadCount ≥ 1` on a miner that is
not mining and holds no worker left by an earlier call, once it has ended, has
either returned a block or thrown
`InterruptedException`. If no `catch` handler ran: it returned a block exactly
when some worker made the compare-and-swap to `BLOCK_FOUND` (that worker then
stored the returned block in `m_block`), and it threw exactly when `stop()`
made its compare-and-swap, which excludes any worker's. If a handler ran and no
worker had made the compare-and-swap, it threw. -/
theorem mine_outcome (ext : Collaborators) (st : MiningState) (blk : BlockTemplate)
    (hc : Nat) (params : BlockMiningParameters) (threadCount seed : Nat)
    (schedule : List Action) (r : MineResult)
    (ht : 1 ≤ threadCount) (hst : st ≠ .MINING_IN_PROGRESS)
    (hret : (run ext (call st blk hc [] params threadCount seed) schedule).minePc =
      .returned r) :
    ((∃ b, r = .found b) ∨ r = .failed .interrupted) ∧
    (¬ hasCatch (run ext (call st blk hc [] params threadCount seed) schedule).log →
      ((∃ b, r = .found b) ↔
        ∃ i, i ∈ winners (run ext (call st blk hc [] params threadCount seed) schedule).log) ∧
      (∀ b, r = .found b →
        ∃ i, winners (run ext (call st blk hc [] params threadCount seed) schedule).log = [i] ∧
          Event.stored i b ∈ (run ext (call st blk hc [] params threadCount seed) schedule).log ∧
          (run ext (call st blk hc [] params threadCount seed) schedule).m_block = b) ∧
      (r = .failed .interrupted ↔
        Event.stopCas ∈ (run ext (call st blk hc [] params threadCount seed) schedule).log) ∧
      (Event.stopCas ∈ (run ext (call st blk hc [] params threadCount seed) schedule).log →
        winners (run ext (call st blk hc [] params threadCount seed) schedule).log = [])) ∧
    (hasCatch (run ext (call st blk hc [] params threadCount seed) schedule).log →
      winners (run ext (call st blk hc [] params threadCount seed) schedule).log = [] →
      r = .failed .interrupted) := by
  have hinv := inv_run ext schedule _ (inv_call ext st blk hc params threadCount seed ht hst)
  generalize run ext (call st blk hc [] params threadCount seed) schedule = s at hinv hret ⊢
  rcases returned_cases hinv _ hret with
    ⟨b1, i, e1, e2, e3, e4, e5, e6, e7, -, -⟩ | ⟨e1, e2, e3, e4⟩
  · subst e1
    refine ⟨Or.inl ⟨b1, rfl⟩, fun _ => ⟨⟨fun _ => ⟨i, by rw [e4]; simp⟩, fun _ => ⟨b1, rfl⟩⟩,
      ?_, ⟨fun hx => (nomatch hx), fun hx => absurd hx e6⟩, fun hx => absurd hx e6⟩,
      fun hx => absurd hx e7⟩
    intro b hb
    cases hb
    exact ⟨i, e4, e5, e3⟩
  · subst e1
    refine ⟨Or.inr rfl, fun hnc => ?_, fun _ _ => rfl⟩
    have hstop : Event.stopCas ∈ s.log := by
      rcases e3 with e3 | e3
      · exact e3
      · exact absurd e3 hnc
    refine ⟨⟨fun ⟨b, hb⟩ => (nomatch hb), fun ⟨i, hi⟩ => ?_⟩, fun b hb => (nomatch hb),
      ⟨fun _ => hstop, fun _ => rfl⟩, e4⟩
    rw [e4 hstop] at hi
    cases hi

/-- Witness for C1 (amended): the winning run of two workers, in which no
handler runs. -/
theorem mine_outcome_witness :
    ¬ hasCatch (run flakyCollaborators sampleCall winSchedule).log ∧
    ((∃ b, MineResult.found { sampleBlock with nonce := 10 } = .found b) ↔
      ∃ i, i ∈ winners (run flakyCollaborators sampleCall winSchedule).log) ∧
    (MineResult.found { sampleBlock with nonce := 10 } = .failed .interrupted ↔
      Event.stopCas ∈ (run flakyCollaborators sampleCall winSchedule).log) := by
  have hlog : (run flakyCollaborators sampleCall winSchedule).log =
      [Event.casFound 0, Event.stored 0 { sampleBlock with nonce := 10 }] := rfl
  have hnc : ¬ hasCatch (run flakyCollaborators sampleCall winSchedule).log := by
    rw [hlog]
    rintro ⟨e, he, hc⟩
    simp only [List.mem_cons, List.mem_singleton, List.not_mem_nil, or_false] at he
    rcases he with rfl | rfl <;> cases hc
  have h := (mine_outcome flakyCollaborators .MINING_STOPPED sampleBlock 0
    { blockTemplate := sampleBlock, difficulty := 1 } 2 10 winSchedule
    (.found { sampleBlock with nonce := 10 }) (by decide) (by decide) rfl).2.1 hnc
  exact ⟨hnc, h.1, h.2.2.1⟩

end Miner

namespace MinerManager
open CryptoNote

theorem restart_no_submit (ext : Collaborators) (cfg : MiningConfig) (m : Manager)
    (templates : List (Option TemplateResponse)) :
    ∃ tail, (restart ext cfg m templates).calls = m.calls ++ tail ∧
      ∀ c ∈ tail, ∀ b acc, c ≠ Call.submitBlock b acc := by
  unfold restart
  split
  · exact ⟨[], by simp, by simp⟩
  · split
    · exact ⟨_, rfl, by simp⟩
    · exact ⟨_, rfl, by simp⟩

end MinerManager

namespace Miner
open CryptoNote

/-- The spawning loop of `runWorkers` in the step model: after the entry step
and `i ≤ threadCount` spawns, worker `j < i` holds the template with nonce
`startNonce seed j`, the difficulty of the call and the step
`nonceStepOf threadCount`. -/
theorem spawn_run (ext : Collaborators) (st : MiningState) (blk : BlockTemplate) (hc : Nat)
    (params : BlockMiningParameters) (threadCount seed i : Nat) (ht : 1 ≤ threadCount)
    (hst : st ≠ .MINING_IN_PROGRESS) (hi : i ≤ threadCount) :
    run ext (call st blk hc [] params threadCount seed) (List.replicate (i + 1) (.mine false)) =
      { call st blk hc [] params threadCount seed with
        m_state := .MINING_IN_PROGRESS
        minePc := .spawning i { params.blockTemplate with nonce := startNonce seed i }
        workers := (List.range i).map (fun j =>
          { pc := .loopTest
            block := { params.blockTemplate with nonce := startNonce seed j }
            difficulty := params.difficulty
            nonceStep := nonceStepOf threadCount }) } := by
  induction i with
  | zero =>
    have hz : threadCount ≠ 0 := by omega
    simp [run, step, mine, call, hz, hst, startNonce]
  | succ i ih =>
    have hlt : i < threadCount := by omega
    rw [List.replicate_succ', run_append, ih (by omega)]
    simp [run, step, mine, call, hlt, startNonce, List.range_succ]

/-- A failed hash in the step model advances the worker's nonce as
`workerNonce` does. -/
theorem workerNonce_step (start step k : Nat) (b : BlockTemplate) :
    (advanceNonce { b with nonce := workerNonce start step k } step).nonce =
      workerNonce start step (k + 1) := rfl

end Miner

namespace Miner
open CryptoNote

/-- C2 (the code at the failing input): a first call `mine((sampleBlock, 1), 2)`
leaves through the `catch` of `runWorkers` with worker 0 still hashing and ends
with `InterruptedException`. The next call `mine(secondParams, 1)` on the same
miner returns a block: the one compare-and-swap on record is by the worker of
the first call, and the returned block is the first call's template with nonce
`10`, which is not the second call's template and fails `check_hash` at the
second call's difficulty. -/
theorem leftover_worker_wins :
    (run MinerManager.sampleCollaborators sampleCall leakSchedule).minePc =
      .returned (.failed .interrupted) ∧
    (run MinerManager.sampleCollaborators sampleCall leakSchedule).workers =
      [{ pc := .hashing, block := { sampleBlock with nonce := 10 }, difficulty := 1,
         nonceStep := 2 }] ∧
    (run MinerManager.sampleCollaborators
      (nextCall (run MinerManager.sampleCollaborators sampleCall leakSchedule) secondParams 1 0)
      staleWinSchedule).minePc = .returned (.found { sampleBlock with nonce := 10 }) ∧
    winners (run MinerManager.sampleCollaborators
      (nextCall (run MinerManager.sampleCollaborators sampleCall leakSchedule) secondParams 1 0)
      staleWinSchedule).log = [0] ∧
    (run MinerManager.sampleCollaborators
      (nextCall (run MinerManager.sampleCollaborators sampleCall leakSchedule) secondParams 1 0)
      staleWinSchedule).m_state = .BLOCK_FOUND ∧
    qualifies MinerManager.sampleCollaborators { sampleBlock with nonce := 10 }
      secondParams.difficulty = false ∧
    ({ sampleBlock with nonce := 10 } : BlockTemplate) ≠
      { secondParams.blockTemplate with nonce := 10 } := by
  refine ⟨rfl, rfl, rfl, rfl, rfl, by decide, by decide⟩

end Miner

namespace Miner
open CryptoNote

theorem log_step (ext : Collaborators) (s : System) (a : Action) :
    ∃ l, (step ext s a).log = s.log ++ l := by
  cases a with
  | mine b =>
    simp only [step, mine]
    split
    · split
      · exact ⟨[], by simp⟩
      · split <;> exact ⟨[], by simp⟩
    · split
      · split
        · exact ⟨_, rfl⟩
        · exact ⟨[], by simp⟩
      · exact ⟨[], by simp⟩
    · split <;> exact ⟨[], by simp⟩
    · split <;> exact ⟨[], by simp⟩
    · exact ⟨[], by simp⟩
  | worker i b =>
    simp only [step, workerFunc]
    split
    · exact ⟨[], by simp⟩
    · split
      · split <;> exact ⟨[], by simp⟩
      · split
        · exact ⟨_, rfl⟩
        · split <;> exact ⟨[], by simp⟩
      · exact ⟨[], by simp⟩
      · exact ⟨[], by simp⟩
      · exact ⟨[], by simp⟩
      · split
        · exact ⟨_, rfl⟩
        · exact ⟨[], by simp⟩
      · exact ⟨_, rfl⟩
      · exact ⟨[], by simp⟩
  | stop b =>
    simp only [step, stop]
    split
    · exact ⟨_, rfl⟩
    · exact ⟨[], by simp⟩

theorem log_run_mem (ext : Collaborators) (schedule : List Action) (s : System) (e : Event)
    (h : e ∈ s.log) : e ∈ (run ext s schedule).log := by
  induction schedule generalizing s with
  | nil => exact h
  | cons a l ih =>
    rw [run_cons]
    apply ih
    obtain ⟨l1, h1⟩ := log_step ext s a
    rw [h1]
    exact List.mem_append_left _ h

/-- Once the compare-and-swap of `stop()` is on record, the call never returns
a block. -/
theorem stopped_never_found (ext : Collaborators) (s : System) (h : Inv ext s)
    (hs : Event.stopCas ∈ s.log) (schedule : List Action) (b : BlockTemplate) :
    (run ext s schedule).minePc ≠ .returned (.found b) := by
  intro hret
  have hinv := inv_run ext schedule s h
  rcases returned_cases hinv _ hret with ⟨b1, i, -, -, -, -, -, e6, -⟩ | ⟨e1, -⟩
  · exact e6 (log_run_mem ext schedule s _ hs)
  · cases e1

theorem sum_set_stepsLeft (l : List Worker) (i : Nat) (w w1 : Worker)
    (h : l[i]? = some w) :
    ((l.set i w1).map (fun w => w.pc.stepsLeft)).sum + w.pc.stepsLeft =
      (l.map (fun w => w.pc.stepsLeft)).sum + w1.pc.stepsLeft := by
  induction l generalizing i with
  | nil => simp at h
  | cons a l ih =>
    cases i with
    | zero =>
      simp at h
      subst h
      simp
      omega
    | succ i =>
      rw [List.getElem?_cons_succ] at h
      have := ih i h
      rw [List.set_cons_succ, List.map_cons, List.map_cons, List.sum_cons, List.sum_cons]
      omega

theorem exists_unfinished (l : List Worker)
    (h : ¬ l.all (fun w => decide (w.pc = .finished)) = true) :
    ∃ (i : Nat) (w : Worker), l[i]? = some w ∧ w.pc ≠ .finished := by
  rw [List.all_eq_true] at h
  push_neg at h
  obtain ⟨w, hw, hp⟩ := h
  obtain ⟨i, hi⟩ := List.mem_iff_getElem?.1 hw
  exact ⟨i, w, hi, by simpa using hp⟩

/-- A step of an unfinished worker in a stopped attempt brings it closer to
its return and leaves the attempt stopped. -/
theorem worker_progress (ext : Collaborators) (s : System) (i : Nat) (w : Worker)
    (hst : s.m_state = .MINING_STOPPED) (hw : s.workers[i]? = some w)
    (hp : w.pc ≠ .finished) :
    (workerFunc ext s i false).m_state = .MINING_STOPPED ∧
    (workerFunc ext s i false).minePc = s.minePc ∧
    (workerFunc ext s i false).threadCount = s.threadCount ∧
    ∃ w1, (workerFunc ext s i false).workers = s.workers.set i w1 ∧
      w1.pc.stepsLeft < w.pc.stepsLeft := by
  cases hpc : w.pc with
  | loopTest =>
    refine ⟨by simp [workerFunc, hw, hpc, hst], by simp [workerFunc, hw, hpc, hst],
      by simp [workerFunc, hw, hpc, hst], { w with pc := .finished }, ?_, ?_⟩
    · simp [workerFunc, hw, hpc, hst]
    · simp [WorkerPc.stepsLeft]
  | hashing =>
    cases hh : ext.getBlockLongHash w.block with
    | none =>
      refine ⟨by simp [workerFunc, hw, hpc, hh], by simp [workerFunc, hw, hpc, hh],
        by simp [workerFunc, hw, hpc, hh], { w with pc := .finished }, ?_, ?_⟩
      · simp [workerFunc, hw, hpc, hh]
      · simp [WorkerPc.stepsLeft]
    | some hash =>
      by_cases hq : ext.check_hash hash w.difficulty = true
      · refine ⟨by simp [workerFunc, hw, hpc, hh, hq, hst],
          by simp [workerFunc, hw, hpc, hh, hq], by simp [workerFunc, hw, hpc, hh, hq],
          { w with pc := .sbfLoad }, ?_, ?_⟩
        · simp [workerFunc, hw, hpc, hh, hq]
        · simp [WorkerPc.stepsLeft]
      · refine ⟨by simp [workerFunc, hw, hpc, hh, hq, hst],
          by simp [workerFunc, hw, hpc, hh, hq], by simp [workerFunc, hw, hpc, hh, hq],
          { w with pc := .loopTest, block := advanceNonce w.block w.nonceStep }, ?_, ?_⟩
        · simp [workerFunc, hw, hpc, hh, hq]
        · simp [WorkerPc.stepsLeft]
  | sbfLoad =>
    refine ⟨by simp [workerFunc, hw, hpc, hst], by simp [workerFunc, hw, hpc],
      by simp [workerFunc, hw, hpc], { w with pc := .sbfSwitch .MINING_STOPPED }, ?_, ?_⟩
    · simp [workerFunc, hw, hpc, hst]
    · simp [WorkerPc.stepsLeft]
  | sbfSwitch x =>
    cases x with
    | MINING_STOPPED =>
      refine ⟨by simp [workerFunc, hw, hpc, hst], by simp [workerFunc, hw, hpc],
        by simp [workerFunc, hw, hpc], { w with pc := .finished }, ?_, ?_⟩
      · simp [workerFunc, hw, hpc]
      · simp [WorkerPc.stepsLeft]
    | BLOCK_FOUND =>
      refine ⟨by simp [workerFunc, hw, hpc, hst], by simp [workerFunc, hw, hpc],
        by simp [workerFunc, hw, hpc], { w with pc := .finished }, ?_, ?_⟩
      · simp [workerFunc, hw, hpc]
      · simp [WorkerPc.stepsLeft]
    | MINING_IN_PROGRESS =>
      refine ⟨by simp [workerFunc, hw, hpc, hst], by simp [workerFunc, hw, hpc, hst],
        by simp [workerFunc, hw, hpc, hst], { w with pc := .sbfSwitch .MINING_STOPPED }, ?_, ?_⟩
      · simp [workerFunc, hw, hpc, hst]
      · simp [WorkerPc.stepsLeft]
  | storeBlock =>
    refine ⟨by simp [workerFunc, hw, hpc, hst], by simp [workerFunc, hw, hpc],
      by simp [workerFunc, hw, hpc], { w with pc := .finished }, ?_, ?_⟩
    · simp [workerFunc, hw, hpc]
    · simp [WorkerPc.stepsLeft]
  | finished => exact absurd hpc hp

end Miner

namespace Miner
open CryptoNote

/-- A stopped attempt ends: some schedule of worker and caller steps, without
any further `stop()`, brings `mine` to its `InterruptedException`. -/
theorem stopped_ends (ext : Collaborators) (n : Nat) :
    ∀ s : System, Stopped s → stepsLeft s ≤ n →
      ∃ schedule, (∀ c, Action.stop c ∉ schedule) ∧
        (run ext s schedule).minePc = .returned (.failed .interrupted) := by
  induction n with
  | zero =>
    intro s hS hn
    obtain ⟨h1, h2, h3⟩ := hS
    cases hpc : s.minePc with
    | entry => exact absurd hpc h2
    | spawning i t => simp [stepsLeft, callStepsLeft, hpc] at hn
    | joining => simp [stepsLeft, callStepsLeft, hpc] at hn
    | afterRun => simp [stepsLeft, callStepsLeft, hpc] at hn
    | returned r =>
      have := h3 r hpc
      subst this
      exact ⟨[], by simp, hpc⟩
  | succ n ih =>
    intro s hS hn
    obtain ⟨h1, h2, h3⟩ := hS
    cases hpc : s.minePc with
    | entry => exact absurd hpc h2
    | returned r =>
      have := h3 r hpc
      subst this
      exact ⟨[], by simp, hpc⟩
    | afterRun =>
      refine ⟨[.mine false], by simp, ?_⟩
      simp [run, step, mine, hpc, h1]
    | joining =>
      by_cases hall : s.workers.all (fun w => decide (w.pc = .finished)) = true
      · have hm : mine s false = { s with
            workers := []
            m_miningStopped := true
            minePc := .afterRun } := by
          unfold mine
          rw [hpc]
          simp only
          rw [if_pos hall]
        obtain ⟨sch, g1, g2⟩ := ih (mine s false)
          (by rw [hm]; exact ⟨h1, by simp, fun r hr => by cases hr⟩)
          (by
            rw [hm]
            simp [stepsLeft, callStepsLeft, hpc] at hn ⊢
            omega)
        refine ⟨.mine false :: sch, ?_, by rw [run_cons]; exact g2⟩
        intro c hc
        rcases List.mem_cons.1 hc with hc | hc
        · cases hc
        · exact g1 c hc
      · obtain ⟨i, w, hw, hp⟩ := exists_unfinished s.workers hall
        obtain ⟨f1, f2, f3, w1, f4, f5⟩ := worker_progress ext s i w h1 hw hp
        have hsum := sum_set_stepsLeft s.workers i w w1 hw
        obtain ⟨sch, g1, g2⟩ := ih (workerFunc ext s i false)
          ⟨f1, by rw [f2]; exact h2, fun r hr => h3 r (by rw [← f2]; exact hr)⟩
          (by
            unfold stepsLeft callStepsLeft at hn ⊢
            rw [f2, f3, f4]
            rw [hpc] at hn ⊢
            simp only at hn ⊢
            omega)
        refine ⟨.worker i false :: sch, ?_, by rw [run_cons]; exact g2⟩
        intro c hc
        rcases List.mem_cons.1 hc with hc | hc
        · cases hc
        · exact g1 c hc
    | spawning i t =>
      by_cases hi : i < s.threadCount
      · have hm : mine s false = { s with
            workers := s.workers ++
              [{ pc := .loopTest, block := t, difficulty := s.params.difficulty,
                 nonceStep := nonceStepOf s.threadCount }]
            minePc := .spawning (i + 1) { t with nonce := add32 t.nonce 1 } } := by
          unfold mine
          rw [hpc]
          simp only
          rw [if_pos hi]
          rfl
        obtain ⟨sch, g1, g2⟩ := ih (mine s false)
          (by rw [hm]; exact ⟨h1, by simp, fun r hr => by cases hr⟩)
          (by
            rw [hm]
            simp [stepsLeft, callStepsLeft, hpc, WorkerPc.stepsLeft] at hn ⊢
            omega)
        refine ⟨.mine false :: sch, ?_, by rw [run_cons]; exact g2⟩
        intro c hc
        rcases List.mem_cons.1 hc with hc | hc
        · cases hc
        · exact g1 c hc
      · have hm : mine s false = { s with minePc := .joining } := by
          unfold mine
          rw [hpc]
          simp only
          rw [if_neg hi]
        obtain ⟨sch, g1, g2⟩ := ih (mine s false)
          (by rw [hm]; exact ⟨h1, by simp, fun r hr => by cases hr⟩)
          (by
            rw [hm]
            simp [stepsLeft, callStepsLeft, hpc] at hn ⊢
            omega)
        refine ⟨.mine false :: sch, ?_, by rw [run_cons]; exact g2⟩
        intro c hc
        rcases List.mem_cons.1 hc with hc | hc
        · cases hc
        · exact g1 c hc

end Miner

namespace MinerManager
open CryptoNote

theorem submitCount_append_none (l tail : List Call)
    (h : ∀ c ∈ tail, ∀ b acc, c ≠ Call.submitBlock b acc) :
    submitCount (l ++ tail) = submitCount l := by
  unfold submitCount
  rw [List.countP_append]
  have : List.countP Call.isSubmit tail = 0 := by
    rw [List.countP_eq_zero]
    intro c hc
    cases c with
    | submitBlock b acc => exact absurd rfl (h _ hc b acc)
    | stopBlockchainMonitoring => simp [Call.isSubmit]
    | stopMining => simp [Call.isSubmit]
    | requestMiningParameters => simp [Call.isSubmit]
    | startBlockchainMonitoring => simp [Call.isSubmit]
    | startMining p => simp [Call.isSubmit]
  omega

theorem restart_quiet (ext : Collaborators) (cfg : MiningConfig) (m : Manager)
    (templates : List (Option TemplateResponse)) :
    (restart ext cfg m templates).m_minedBlock = m.m_minedBlock ∧
    (restart ext cfg m templates).m_events = m.m_events ∧
    submitCount (restart ext cfg m templates).calls = submitCount m.calls := by
  obtain ⟨-, -, f3, f4, -, -, -⟩ := restart_fields ext cfg m templates
  obtain ⟨tail, g1, g2⟩ := restart_no_submit ext cfg m templates
  exact ⟨f4, f3, by rw [g1, submitCount_append_none _ _ g2]⟩

theorem iteration_quiet (ext : Collaborators) (cfg : MiningConfig) (m : Manager)
    (spurious : Bool) (res : Option Nat) (templates : List (Option TemplateResponse)) :
    (eventLoopIteration ext cfg m spurious res templates).m_minedBlock = m.m_minedBlock ∧
    minedCount (eventLoopIteration ext cfg m spurious res templates).m_events +
      submitCount (eventLoopIteration ext cfg m spurious res templates).calls ≤
      minedCount m.m_events + submitCount m.calls := by
  have hsub : ∀ acc, submitCount (m.calls ++
      [Call.stopBlockchainMonitoring, Call.submitBlock m.m_minedBlock acc]) =
      submitCount m.calls + 1 := by
    intro acc
    simp [submitCount, List.countP_append, List.countP_cons, Call.isSubmit]
  have hupd : submitCount (m.calls ++ [Call.stopMining, Call.stopBlockchainMonitoring]) =
      submitCount m.calls :=
    submitCount_append_none _ _ (by simp)
  unfold eventLoopIteration
  split
  · split
    · exact ⟨rfl, Nat.le_refl _⟩
    · rename_i rest hq
      have hcount : minedCount m.m_events = minedCount rest + 1 := by
        rw [hq]; simp [minedCount]
      split
      · split
        · split
          · refine ⟨rfl, ?_⟩
            show minedCount rest + submitCount _ ≤ _
            rw [hsub, hcount]
            omega
          · obtain ⟨q1, q2, q3⟩ := restart_quiet ext cfg
              { m with
                m_events := rest
                calls := m.calls ++
                  [Call.stopBlockchainMonitoring, Call.submitBlock m.m_minedBlock true]
                m_lastBlockTimestamp := m.m_minedBlock.timestamp
                blocksMined := (m.blocksMined + 1) % 2 ^ 64 } templates
            refine ⟨q1, ?_⟩
            rw [q2, q3]
            show minedCount rest + submitCount _ ≤ _
            rw [hsub, hcount]
            omega
        · obtain ⟨q1, q2, q3⟩ := restart_quiet ext cfg
            { m with
              m_events := rest
              calls := m.calls ++
                [Call.stopBlockchainMonitoring, Call.submitBlock m.m_minedBlock true]
              m_lastBlockTimestamp := m.m_minedBlock.timestamp } templates
          refine ⟨q1, ?_⟩
          rw [q2, q3]
          show minedCount rest + submitCount _ ≤ _
          rw [hsub, hcount]
          omega
      · obtain ⟨q1, q2, q3⟩ := restart_quiet ext cfg
          { m with
            m_events := rest
            calls := m.calls ++
              [Call.stopBlockchainMonitoring, Call.submitBlock m.m_minedBlock false] }
          templates
        refine ⟨q1, ?_⟩
        rw [q2, q3]
        show minedCount rest + submitCount _ ≤ _
        rw [hsub, hcount]
        omega
    · rename_i rest hq
      have hcount : minedCount m.m_events = minedCount rest := by
        rw [hq]; simp [minedCount]
      obtain ⟨q1, q2, q3⟩ := restart_quiet ext cfg
        { m with
          m_events := rest
          minerState :=
            if m.minerState = .MINING_IN_PROGRESS ∧ spurious = false then .MINING_STOPPED
            else m.minerState
          calls := m.calls ++ [Call.stopMining, Call.stopBlockchainMonitoring] } templates
      refine ⟨q1, ?_⟩
      rw [q2, q3]
      show minedCount rest + submitCount _ ≤ _
      rw [hupd, hcount]
  · exact ⟨rfl, Nat.le_refl _⟩

/-- While no mining task resumes with a block, `m_minedBlock` is not written
and every `submitBlock` call consumes a `BLOCK_MINED` that was already queued. -/
theorem quiet_run (ext : Collaborators) (cfg : MiningConfig) (steps : List Step)
    (m : Manager) (h : ∀ r, Step.miningTask r ∈ steps → ∃ e, r = .failed e) :
    (runManager ext cfg m steps).m_minedBlock = m.m_minedBlock ∧
    minedCount (runManager ext cfg m steps).m_events +
      submitCount (runManager ext cfg m steps).calls ≤
      minedCount m.m_events + submitCount m.calls := by
  induction steps generalizing m with
  | nil => exact ⟨rfl, Nat.le_refl _⟩
  | cons a l ih =>
    have hl : ∀ r, Step.miningTask r ∈ l → ∃ e, r = .failed e :=
      fun r hr => h r (List.mem_cons_of_mem _ hr)
    obtain ⟨i1, i2⟩ := ih (managerStep ext cfg m a) hl
    have hstep : (managerStep ext cfg m a).m_minedBlock = m.m_minedBlock ∧
        minedCount (managerStep ext cfg m a).m_events +
          submitCount (managerStep ext cfg m a).calls ≤
          minedCount m.m_events + submitCount m.calls := by
      cases a with
      | miningTask r =>
        obtain ⟨e, he⟩ := h r (List.mem_cons_self _ _)
        subst he
        exact ⟨rfl, Nat.le_refl _⟩
      | monitoringTask u =>
        cases u with
        | true =>
          refine ⟨rfl, ?_⟩
          show minedCount (m.m_events ++ [MinerEventType.BLOCKCHAIN_UPDATED]) +
            submitCount m.calls ≤ _
          simp [minedCount, List.count_append]
        | false => exact ⟨rfl, Nat.le_refl _⟩
      | miner st => exact ⟨rfl, Nat.le_refl _⟩
      | eventLoop sp res tr => exact iteration_quiet ext cfg m sp res tr
    show (runManager ext cfg (managerStep ext cfg m a) l).m_minedBlock = _ ∧ _
    exact ⟨by rw [i1, hstep.1], le_trans i2 hstep.2⟩

end MinerManager

namespace MinerManager
open CryptoNote

/-- C5 (amended): let the attempt be a call `mine(params, threadCount)` with
`threadCount ≥ 1` on a miner that was not mining and held no leftover worker,
run under any schedule `before`, and let `BLOCKCHAIN_UPDATED` be taken from the
queue while that attempt is still `MINING_IN_PROGRESS`, the compare-and-swap of
`stop()` not failing spuriously. Then `stopMining()` is `stop()` on the attempt
and leaves it `MINING_STOPPED`; the handler calls no `submitBlock` and leaves
`m_minedBlock`; under every later schedule the attempt's `mine` never returns a
block; some later schedule without any further `stop()` ends it with
`InterruptedException`; whatever result the attempt's `mine` ends with, the
mining task given that result stores no block and pushes no event; and in
every later run of the manager in which the mining tasks that resume are this
attempt's, `m_minedBlock` is never written and every `submitBlock` call
consumes a `BLOCK_MINED` that was already in the queue. -/
theorem cancelled_attempt_not_submitted (ext : Collaborators) (cfg : MiningConfig)
    (m : Manager) (res : Option Nat) (templates : List (Option TemplateResponse))
    (rest : List MinerEventType) (st : MiningState) (blk : BlockTemplate) (hc : Nat)
    (params : BlockMiningParameters) (seed : Nat) (before : List Miner.Action)
    (ht : 1 ≤ cfg.threadCount) (hst : st ≠ .MINING_IN_PROGRESS)
    (hrun : m.status = .running) (hq : m.m_events = .BLOCKCHAIN_UPDATED :: rest)
    (hprog : (Miner.run ext (Miner.call st blk hc [] params cfg.threadCount seed)
      before).m_state = .MINING_IN_PROGRESS)
    (hview : m.minerState =
      (Miner.run ext (Miner.call st blk hc [] params cfg.threadCount seed) before).m_state) :
    (eventLoopIteration ext cfg m false res templates).minerState =
      (Miner.stop (Miner.run ext (Miner.call st blk hc [] params cfg.threadCount seed)
        before) false).m_state ∧
    (Miner.stop (Miner.run ext (Miner.call st blk hc [] params cfg.threadCount seed)
      before) false).m_state = .MINING_STOPPED ∧
    (eventLoopIteration ext cfg m false res templates).m_events = rest ∧
    (eventLoopIteration ext cfg m false res templates).m_minedBlock = m.m_minedBlock ∧
    (∃ tail, (eventLoopIteration ext cfg m false res templates).calls =
        m.calls ++ [Call.stopMining, Call.stopBlockchainMonitoring] ++ tail ∧
      ∀ c ∈ tail, ∀ b acc, c ≠ Call.submitBlock b acc) ∧
    (∀ after b, (Miner.run ext (Miner.stop (Miner.run ext
        (Miner.call st blk hc [] params cfg.threadCount seed) before) false) after).minePc ≠
      .returned (.found b)) ∧
    (∃ after, (∀ c, Miner.Action.stop c ∉ after) ∧
      (Miner.run ext (Miner.stop (Miner.run ext
        (Miner.call st blk hc [] params cfg.threadCount seed) before) false) after).minePc =
      .returned (.failed .interrupted)) ∧
    (∀ after r m1, (Miner.run ext (Miner.stop (Miner.run ext
        (Miner.call st blk hc [] params cfg.threadCount seed) before) false) after).minePc =
      .returned r → managerStep ext cfg m1 (.miningTask r) = m1) ∧
    (∀ steps : List Step,
      (∀ r, Step.miningTask r ∈ steps → ∃ after, (Miner.run ext (Miner.stop (Miner.run ext
          (Miner.call st blk hc [] params cfg.threadCount seed) before) false) after).minePc =
        .returned r) →
      (runManager ext cfg (eventLoopIteration ext cfg m false res templates)
        steps).m_minedBlock = m.m_minedBlock ∧
      submitCount (runManager ext cfg (eventLoopIteration ext cfg m false res templates)
        steps).calls ≤ minedCount rest + submitCount m.calls) := by
  have hinv := Miner.inv_run ext before _
    (Miner.inv_call ext st blk hc params cfg.threadCount seed ht hst)
  generalize Miner.run ext (Miner.call st blk hc [] params cfg.threadCount seed) before = s
    at hinv hprog hview ⊢
  have hs : m.minerState = .MINING_IN_PROGRESS := by rw [hview, hprog]
  have hstop : Miner.stop s false = { s with
      m_state := .MINING_STOPPED
      log := s.log ++ [Miner.Event.stopCas] } := by
    simp [Miner.stop, hprog]
  have hstate : (Miner.stop s false).m_state = .MINING_STOPPED := by rw [hstop]
  have hinv1 : Miner.Inv ext (Miner.stop s false) := Miner.inv_stop ext s false hinv
  have hlog : Miner.Event.stopCas ∈ (Miner.stop s false).log := by rw [hstop]; simp
  have hnever := Miner.stopped_never_found ext _ hinv1 hlog
  have e : eventLoopIteration ext cfg m false res templates =
      restart ext cfg
        { m with
          m_events := rest
          minerState := .MINING_STOPPED
          calls := m.calls ++ [Call.stopMining, Call.stopBlockchainMonitoring] }
        templates := by
    unfold eventLoopIteration
    rw [hrun]
    simp only [hq, hs]
    rfl
  obtain ⟨-, -, f3, f4, f5, -, -⟩ := restart_fields ext cfg
    { m with
      m_events := rest
      minerState := .MINING_STOPPED
      calls := m.calls ++ [Call.stopMining, Call.stopBlockchainMonitoring] } templates
  obtain ⟨tail, g1, g2⟩ := restart_no_submit ext cfg
    { m with
      m_events := rest
      minerState := .MINING_STOPPED
      calls := m.calls ++ [Call.stopMining, Call.stopBlockchainMonitoring] } templates
  have hStopped : Miner.Stopped (Miner.stop s false) := by
    obtain ⟨hne, -⟩ := Miner.inv_inProgress hinv hprog
    refine ⟨hstate, by rw [hstop]; exact hne, fun r hr => ?_⟩
    rw [hstop] at hr
    cases r with
    | found b =>
      have := (hinv.pc.found b hr).1
      rw [hprog] at this
      cases this
    | failed x =>
      have := (hinv.pc.failed x hr).2
      rw [hprog] at this
      cases this
  refine ⟨by rw [e, hstate]; exact f5, hstate, by rw [e]; exact f3, by rw [e]; exact f4,
    ⟨tail, by rw [e]; exact g1, g2⟩, hnever,
    Miner.stopped_ends ext _ _ hStopped (Nat.le_refl _), ?_, ?_⟩
  · intro after r m1 hr
    cases r with
    | found b => exact absurd hr (hnever after b)
    | failed x => rfl
  · intro steps hsteps
    have hfail : ∀ r, Step.miningTask r ∈ steps → ∃ x, r = .failed x := by
      intro r hr
      obtain ⟨after, ha⟩ := hsteps r hr
      cases r with
      | found b => exact absurd ha (hnever after b)
      | failed x => exact ⟨x, rfl⟩
    obtain ⟨q1, q2⟩ := quiet_run ext cfg steps
      (eventLoopIteration ext cfg m false res templates) hfail
    rw [e] at q1 q2 ⊢
    rw [f4] at q1
    rw [f3, g1, submitCount_append_none _ _ g2] at q2
    refine ⟨q1, ?_⟩
    have hupd : submitCount (m.calls ++ [Call.stopMining, Call.stopBlockchainMonitoring]) =
        submitCount m.calls :=
      submitCount_append_none _ _ (by simp)
    simp only [hupd] at q2
    omega

/-- Witness for C5 (amended): the tip moves while both workers of `sampleCall`
are running and worker 0 is hashing. -/
theorem cancelled_attempt_not_submitted_witness :
    (Miner.stop (Miner.run sampleCollaborators Miner.sampleCall
      [.mine false, .mine false, .mine false, .worker 0 false]) false).m_state =
      .MINING_STOPPED ∧
    (eventLoopIteration sampleCollaborators sampleConfig
      { blocksMined := 0, m_lastBlockTimestamp := 0, m_minedBlock := sampleTemplate,
        m_events := [.BLOCKCHAIN_UPDATED], minerState := .MINING_IN_PROGRESS,
        status := .running, calls := [] }
      false none [some { status := 201, body := some freshParams }]).m_events = [] ∧
    (∀ after b, (Miner.run sampleCollaborators (Miner.stop
      (Miner.run sampleCollaborators Miner.sampleCall
        [.mine false, .mine false, .mine false, .worker 0 false]) false) after).minePc ≠
      .returned (.found b)) ∧
    (∃ after, (∀ c, Miner.Action.stop c ∉ after) ∧
      (Miner.run sampleCollaborators (Miner.stop
        (Miner.run sampleCollaborators Miner.sampleCall
          [.mine false, .mine false, .mine false, .worker 0 false]) false) after).minePc =
      .returned (.failed .interrupted)) :=
  ⟨(cancelled_attempt_not_submitted sampleCollaborators sampleConfig
      { blocksMined := 0, m_lastBlockTimestamp := 0, m_minedBlock := sampleTemplate,
        m_events := [.BLOCKCHAIN_UPDATED], minerState := .MINING_IN_PROGRESS,
        status := .running, calls := [] }
      none [some { status := 201, body := some freshParams }] []
      .MINING_STOPPED Miner.sampleBlock 0
      { blockTemplate := Miner.sampleBlock, difficulty := 1 } 10
      [.mine false, .mine false, .mine false, .worker 0 false]
      (by decide) (by decide) rfl rfl rfl rfl).2.1,
   (cancelled_attempt_not_submitted sampleCollaborators sampleConfig
      { blocksMined := 0, m_lastBlockTimestamp := 0, m_minedBlock := sampleTemplate,
        m_events := [.BLOCKCHAIN_UPDATED], minerState := .MINING_IN_PROGRESS,
        status := .running, calls := [] }
      none [some { status := 201, body := some freshParams }] []
      .MINING_STOPPED Miner.sampleBlock 0
      { blockTemplate := Miner.sampleBlock, difficulty := 1 } 10
      [.mine false, .mine false, .mine false, .worker 0 false]
      (by decide) (by decide) rfl rfl rfl rfl).2.2.1,
   (cancelled_attempt_not_submitted sampleCollaborators sampleConfig
      { blocksMined := 0, m_lastBlockTimestamp := 0, m_minedBlock := sampleTemplate,
        m_events := [.BLOCKCHAIN_UPDATED], minerState := .MINING_IN_PROGRESS,
        status := .running, calls := [] }
      none [some { status := 201, body := some freshParams }] []
      .MINING_STOPPED Miner.sampleBlock 0
      { blockTemplate := Miner.sampleBlock, difficulty := 1 } 10
      [.mine false, .mine false, .mine false, .worker 0 false]
      (by decide) (by decide) rfl rfl rfl rfl).2.2.2.2.2.1,
   (cancelled_attempt_not_submitted sampleCollaborators sampleConfig
      { blocksMined := 0, m_lastBlockTimestamp := 0, m_minedBlock := sampleTemplate,
        m_events := [.BLOCKCHAIN_UPDATED], minerState := .MINING_IN_PROGRESS,
        status := .running, calls := [] }
      none [some { status := 201, body := some freshParams }] []
      .MINING_STOPPED Miner.sampleBlock 0
      { blockTemplate := Miner.sampleBlock, difficulty := 1 } 10
      [.mine false, .mine false, .mine false, .worker 0 false]
      (by decide) (by decide) rfl rfl rfl rfl).2.2.2.2.2.2.1⟩

end MinerManager
